import Mathlib

/-!
# sh61: command graph, graph builder and runners

A shallow embedding of `src/sh61.cc`.

* A chain of `command` nodes is a `List command`: the `next` link of a node is
  the tail of the list, and a null pointer is the empty list.  A pointer into a
  chain is a suffix of it together with the position of its first node.
* Dereferencing a null pointer and indexing `args` outside its bounds are
  undefined behaviour in the source; here they are the results
  `Except.error Fault.null_deref` and `Except.error Fault.args_out_of_range`.
* `fork`, `waitpid`, `open`, `execvp` and `chdir` are answered by an
  environment `Env`; a forked child is described by the record of what it does.
  `fork`, `pipe` and `waitpid` are taken to succeed; `open`, `execvp` and `chdir`
  may fail.
* The two outer loops (`while (c)` in `run_list` and in the child of
  `run_conditional`) take a fuel argument; `conditional_child_fuel` and
  `run_list_loop_fuel` show that the fuel handed to them is never used up.
* Process groups and terminal ownership are not part of the model.
-/

namespace Sh61

/-! ## Data model -/

/-- Modelled from the spec: the token kinds of `sh61.hh` (the header is not part of
the sources at hand).  A token is a word (`TYPE_NORMAL`), a redirection operator, or
one of the control operators sequence, background, pipe, and, or.  The same
constants are stored in `command::op`, where `TYPE_NORMAL` means "no operator". -/
inductive TokenType where
  | TYPE_NORMAL
  | TYPE_REDIRECT_OP
  | TYPE_SEQUENCE
  | TYPE_BACKGROUND
  | TYPE_PIPE
  | TYPE_AND
  | TYPE_OR
deriving DecidableEq, Repr

open TokenType

/-- Modelled from the spec: one token handed over by `shell_parser` (declared in
`sh61.hh`): its kind `it.type()` and its text `it.str()`. -/
structure Token where
  type : TokenType
  str : String
deriving DecidableEq, Repr

/-- The `struct redir`: one redirection. -/
structure redir where
  redirect_op : Int := -1
  filename : String := ""
deriving DecidableEq, Repr

/-- The `struct command` without its `next` field, which is the tail of the list
that holds the node. -/
structure command where
  args : List String := []
  pid : Int := -1
  op : TokenType := TYPE_NORMAL
  redirect_op : Int := -1
  exit_status : Int := 1
  redirections : List redir := []
deriving DecidableEq, Repr

deriving instance DecidableEq for Except

/-- Undefined behaviour of the source made explicit, and fuel exhaustion of the
two outer loops of the model. -/
inductive Fault where
  | null_deref
  | args_out_of_range
  | out_of_fuel
deriving DecidableEq, Repr

/-! ## parse_line -/

/-- Local variables of `parse_line` during its token loop.  `c` is always the last
node of the chain under construction; `before` holds the nodes from `chead` up to
(excluding) `c`.  `prev` is the last node of `before` when there is one (then
`prev->next` is `c`), and `c` itself otherwise (then `prev->next` is null). -/
structure ParseState where
  before : List command := []
  c : command := {}
  redirect_op : Int := -1
deriving DecidableEq, Repr

/-- One iteration of the token loop of `parse_line`. -/
def parse_step (s : ParseState) (it : Token) : ParseState :=
  if it.type = TYPE_REDIRECT_OP then
    if it.str = "<" then { s with redirect_op := 0 }
    else if it.str = ">" then { s with redirect_op := 1 }
    else if it.str = "2>" then { s with redirect_op := 2 }
    else s
  else if it.type ≠ TYPE_NORMAL then
    { s with before := s.before ++ [{ s.c with op := it.type }], c := {} }
  else if s.redirect_op = -1 then
    { s with c := { s.c with args := s.c.args ++ [it.str] } }
  else
    { s with
      c := { s.c with
             redirections := s.c.redirections ++
               [{ redirect_op := s.redirect_op, filename := it.str }] },
      redirect_op := -1 }

/-- The function `parse_line` on the token sequence that `shell_parser` yields for
the line.  The result is the chain starting at `chead`; it is never empty. -/
def parse_line (toks : List Token) : List command :=
  let s := toks.foldl parse_step {}
  if s.before ≠ [] ∧ s.c.args.length = 0 then s.before else s.before ++ [s.c]

/-- The `args` of the node `c` under construction when the token loop of
`parse_line` ends: the words that follow the last control operator of the line and
are not consumed as file names of redirections. -/
def trailing_args (toks : List Token) : List String :=
  (toks.foldl parse_step {}).c.args

/-! ## Environment and descriptors -/

/-- The two flag sets that `command::run` passes to `open`. -/
inductive OpenFlags where
  | O_RDONLY
  | O_WRONLY_O_CREAT_O_TRUNC
deriving DecidableEq, Repr

/-- What a standard descriptor of a process is bound to. -/
inductive OpenFile where
  /-- The binding that descriptor `fd` had when the shell started. -/
  | inherited (fd : Nat)
  /-- The read end `pfd[0]` of the pipe created by `run` on node `id`. -/
  | pipe_read (id : Nat)
  /-- The write end `pfd[1]` of the pipe created by `run` on node `id`. -/
  | pipe_write (id : Nat)
  /-- The result of a successful `open(filename, flags)`. -/
  | file (filename : String) (flags : OpenFlags)
deriving DecidableEq, Repr

/-- The bindings of descriptors 0, 1 and 2 of a process.  (They are taken to be
open, so that `pipe` and `open` return descriptors above 2, which the code closes
again right after `dup2`.) -/
structure FdTable where
  fd0 : OpenFile := OpenFile.inherited 0
  fd1 : OpenFile := OpenFile.inherited 1
  fd2 : OpenFile := OpenFile.inherited 2
deriving DecidableEq, Repr

/-- The call `dup2(f, newfd)` for `newfd` among 0, 1, 2. -/
def FdTable.dup2 (t : FdTable) (f : OpenFile) (newfd : Int) : FdTable :=
  if newfd = 0 then { t with fd0 := f }
  else if newfd = 1 then { t with fd1 := f }
  else if newfd = 2 then { t with fd2 := f }
  else t

/-- The binding of descriptor `fd`, for `fd` among 0, 1, 2. -/
def FdTable.get (t : FdTable) (fd : Int) : Option OpenFile :=
  if fd = 0 then some t.fd0
  else if fd = 1 then some t.fd1
  else if fd = 2 then some t.fd2
  else none

/-- Answers of the operating system.  Nodes are named by their position in the
chain handed to `run_list`. -/
structure Env where
  /-- Value that `fork` returns to the parent in `command::run` on node `id`. -/
  run_pid : Nat → Int
  /-- Value that `fork` returns to the parent in `run_conditional` on head `id`. -/
  conditional_pid : Nat → Int
  /-- Status that `waitpid` stores for the process running node `id`. -/
  wait_status : Nat → Int
  /-- Status that `waitpid` stores for the conditional forked for head `id`. -/
  conditional_status : Nat → Int
  /-- Whether `open` succeeds for redirection entry `i` of node `id`. -/
  open_ok : Nat → Nat → Bool
  /-- Whether `execvp` replaces the program image of the child of node `id`. -/
  execvp_ok : Nat → Bool
  /-- The working directory after a successful `chdir(path)` from `cwd`, and `none`
  when `chdir` fails. -/
  chdir : String → String → Option String

/-- The macro `WIFEXITED` of `sys/wait.h`: `((s) & 0x7f) == 0`. -/
def WIFEXITED (s : Int) : Int := if s % 128 = 0 then 1 else 0

/-- The macro `WEXITSTATUS` of `sys/wait.h`: `((s) & 0xff00) >> 8`. -/
def WEXITSTATUS (s : Int) : Int := (s % 65536) / 256

/-! ## command::run -/

/-- System calls of the child forked by `command::run`, as far as they are
observable. -/
inductive ChildEvent where
  | call_open (filename : String) (flags : OpenFlags) (success : Bool)
  | call_dup2 (f : OpenFile) (newfd : Int)
  | call_fprintf (msg : String)
  | call_execvp (file : Option String) (argv : List String)
  | call_exit (status : Int)
deriving DecidableEq, Repr

/-- State of the redirection loop in the child: descriptors, calls made so far, and
whether the loop ran to its end (`false`: the child has called `_exit(1)`). -/
structure RedirResult where
  fds : FdTable
  events : List ChildEvent
  completed : Bool
deriving DecidableEq, Repr

/-- The value `res` of one loop iteration: `none` stands for `-1`.  Also gives the
`open` call made, if any. -/
def open_redirection (open_ok : Bool) (r : redir) : Option OpenFile × List ChildEvent :=
  if r.redirect_op = 0 then
    (if open_ok then some (OpenFile.file r.filename OpenFlags.O_RDONLY) else none,
     [ChildEvent.call_open r.filename OpenFlags.O_RDONLY open_ok])
  else if r.redirect_op = 1 ∨ r.redirect_op = 2 then
    (if open_ok then some (OpenFile.file r.filename OpenFlags.O_WRONLY_O_CREAT_O_TRUNC)
     else none,
     [ChildEvent.call_open r.filename OpenFlags.O_WRONLY_O_CREAT_O_TRUNC open_ok])
  else (none, [])

/-- The loop `for (int i = 0; i < redirections.size(); i++)` of the child, from
index `i` on, `rs` being the entries from `i`. -/
def redirect_loop (open_ok : Nat → Bool) : Nat → List redir → FdTable → RedirResult
  | _, [], fds => { fds := fds, events := [], completed := true }
  | i, r :: rs, fds =>
    match open_redirection (open_ok i) r with
    | (none, ev) =>
      { fds := fds,
        events := ev ++ [ChildEvent.call_fprintf "No such file or directory\n",
                         ChildEvent.call_exit 1],
        completed := false }
    | (some f, ev) =>
      let rest := redirect_loop open_ok (i + 1) rs (fds.dup2 f r.redirect_op)
      { rest with events := ev ++ ChildEvent.call_dup2 f r.redirect_op :: rest.events }

/-- What the child forked by `command::run` does. -/
structure ChildRun where
  /-- Descriptors of the child right after `fork`. -/
  inherited : FdTable
  /-- Calls made by the child, in order. -/
  events : List ChildEvent
  /-- Descriptors of the child when it reaches `execvp` or `_exit`. -/
  fds : FdTable
deriving DecidableEq, Repr

/-- The branch `f_pid == 0` of `command::run` on node `id`. -/
def run_child (env : Env) (id : Nat) (fds : FdTable) (this : command) : ChildRun :=
  let piped := if this.op = TYPE_PIPE then fds.dup2 (OpenFile.pipe_write id) 1 else fds
  let r := redirect_loop (env.open_ok id) 0 this.redirections piped
  { inherited := fds,
    events :=
      if r.completed then
        r.events ++ ChildEvent.call_execvp this.args.head? this.args ::
          (if env.execvp_ok id then []
           else [ChildEvent.call_fprintf "ERROR: execvp failed to execute",
                 ChildEvent.call_exit 1])
      else r.events,
    fds := r.fds }

/-- Outcome of `command::run` in the calling process, with the record of the child. -/
structure RunResult where
  /-- The node after the call. -/
  this : command
  /-- The value returned. -/
  ret : Int
  /-- Descriptors of the calling process after the call. -/
  fds : FdTable
  /-- The forked child. -/
  child : ChildRun
deriving DecidableEq, Repr

/-- The method `command::run` on node `id`, called with descriptors `fds`. -/
def command.run (env : Env) (id : Nat) (fds : FdTable) (this : command) : RunResult :=
  let f_pid := env.run_pid id
  let this1 := { this with pid := f_pid }
  { this := this1,
    ret := this1.pid,
    fds := if this.op = TYPE_PIPE then fds.dup2 (OpenFile.pipe_read id) 0 else fds,
    child := run_child env id fds this }

/-! ## run_pipeline -/

/-- Actions of the process that runs the pipelines of a conditional. -/
inductive Event where
  /-- The call `run()` on node `id`, its return value, and the child it forked. -/
  | run (id : Nat) (ret : Int) (child : ChildRun)
  /-- The call `waitpid(pid, &exit_status, 0)` storing `status` in node `id`. -/
  | waitpid (pid : Int) (id : Nat) (status : Int)
deriving DecidableEq, Repr

/-- Outcome of `run_pipeline(c)`: the chain from `c` on after the call, the
descriptors of the calling process, and its actions. -/
structure PipelineResult where
  chain : List command
  fds : FdTable
  events : List Event
deriving DecidableEq, Repr

/-- The function `run_pipeline(c)`, `c` being the node at position `pos`. -/
def run_pipeline (env : Env) : Nat → FdTable → List command → Except Fault PipelineResult
  | _, _, [] => Except.error Fault.null_deref
  | pos, fds, c :: next =>
    let r := c.run env pos fds
    if c.op = TYPE_PIPE then
      match run_pipeline env (pos + 1) r.fds next with
      | Except.error f => Except.error f
      | Except.ok rest =>
        Except.ok { chain := r.this :: rest.chain, fds := rest.fds,
                    events := Event.run pos r.ret r.child :: rest.events }
    else
      let status := env.wait_status pos
      Except.ok { chain := { r.this with exit_status := status } :: next, fds := r.fds,
                  events := [Event.run pos r.ret r.child,
                             Event.waitpid r.this.pid pos status] }

/-! ## run_conditional -/

/-- The loops `while (c->op == op) c = c->next;` of `run_conditional` (for
`TYPE_PIPE`, `TYPE_AND` and `TYPE_OR`), started at the node at position `pos`.
Returns the position of the node on which the loop stops, that node, and its
`next`; the loop reads `c->op` through a null `c` when it runs off the chain. -/
def skip_while (op : TokenType) : Nat → List command → Except Fault (Nat × command × List command)
  | _, [] => Except.error Fault.null_deref
  | pos, c :: next =>
    if c.op = op then skip_while op (pos + 1) next else Except.ok (pos, c, next)

/-- The loop `while (c)` in the child forked by `run_conditional`, entered with
`c == pipeline_head` at position `pos` and with descriptors `fds`.  Returns the
actions of the child up to its `_exit(0)`.  Every iteration moves `c` forward, so
`fuel` equal to the length of the chain is never used up. -/
def conditional_child (env : Env) :
    Nat → Nat → FdTable → List command → Except Fault (List Event)
  | _, _, _, [] => Except.ok []
  | 0, _, _, _ :: _ => Except.error Fault.out_of_fuel
  | fuel + 1, pos, fds, head :: tl =>
    -- while (c->op == TYPE_PIPE) c = c->next;
    match skip_while TYPE_PIPE pos (head :: tl) with
    | Except.error f => Except.error f
    | Except.ok (epos, _, _) =>
      match run_pipeline env pos fds (head :: tl) with
      | Except.error f => Except.error f
      | Except.ok r =>
        -- `c` points `epos - pos` nodes behind `pipeline_head`
        match r.chain.drop (epos - pos) with
        | [] => Except.error Fault.null_deref
        | c :: next =>
          if c.op = TYPE_BACKGROUND ∨ c.op = TYPE_SEQUENCE then Except.ok r.events
          else
            let skipped : Except Fault (Nat × command × List command) :=
              if c.op = TYPE_AND then
                if WIFEXITED c.exit_status = 0 ∨ WEXITSTATUS c.exit_status ≠ 0 then
                  skip_while TYPE_AND epos (c :: next)
                else Except.ok (epos, c, next)
              else if c.op = TYPE_OR then
                if WIFEXITED c.exit_status ≠ 0 ∧ WEXITSTATUS c.exit_status = 0 then
                  skip_while TYPE_OR epos (c :: next)
                else Except.ok (epos, c, next)
              else Except.ok (epos, c, next)
            match skipped with
            | Except.error f => Except.error f
            | Except.ok (spos, _, snext) =>
              -- c = c->next; pipeline_head = c;
              match conditional_child env fuel (spos + 1) r.fds snext with
              | Except.error f => Except.error f
              | Except.ok rest => Except.ok (r.events ++ rest)

/-- Actions of the interpreting process (the one that executes `run_list`). -/
inductive ListEvent where
  /-- The call `chdir(path)` and whether it succeeded. -/
  | chdir (path : String) (success : Bool)
  /-- The `fork` of `run_conditional(head)`: the pid returned to the parent, the
  working directory at the time of the fork, and what the child does. -/
  | fork (head : Nat) (f_pid : Int) (cwd : String) (child : Except Fault (List Event))
  /-- The call `waitpid(pid, &exit_status, 0)` of `run_list` for the conditional at
  `head`, storing `status` in the node at position `into`. -/
  | waitpid (head : Nat) (pid : Int) (into : Nat) (status : Int)
deriving DecidableEq

/-- The loop `while (true)` at the start of `run_conditional`: the working
directory after it and the `chdir` calls made. -/
def cd_scan (env : Env) : String → List command → Except Fault (String × List ListEvent)
  | _, [] => Except.error Fault.null_deref
  | cwd, c :: next =>
    match c.args[0]? with
    | none => Except.error Fault.args_out_of_range
    | some arg0 =>
      let changed : Except Fault (String × List ListEvent) :=
        if arg0 = "cd" then
          match c.args[1]? with
          | none => Except.error Fault.args_out_of_range
          | some arg1 =>
            match env.chdir cwd arg1 with
            | some dir => Except.ok (dir, [ListEvent.chdir arg1 true])
            | none => Except.ok (cwd, [ListEvent.chdir arg1 false])
        else Except.ok (cwd, [])
      match changed with
      | Except.error f => Except.error f
      | Except.ok (cwd1, ev) =>
        if c.op = TYPE_BACKGROUND ∨ c.op = TYPE_SEQUENCE ∨ next = [] then
          Except.ok (cwd1, ev)
        else
          match cd_scan env cwd1 next with
          | Except.error f => Except.error f
          | Except.ok (cwd2, evs) => Except.ok (cwd2, ev ++ evs)

/-- Outcome of `run_conditional(c)` in the interpreting process. -/
structure ConditionalResult where
  /-- The chain from `c` on after the call. -/
  chain : List command
  /-- Working directory after the call. -/
  cwd : String
  /-- Actions of the interpreting process during the call. -/
  events : List ListEvent

/-- The function `run_conditional(c)`, `c` being the node at position `pos`, called
with working directory `cwd` and descriptors `fds`. -/
def run_conditional (env : Env) (cwd : String) (fds : FdTable) (pos : Nat)
    (c : List command) : Except Fault ConditionalResult :=
  match cd_scan env cwd c with
  | Except.error f => Except.error f
  | Except.ok (cwd1, evs) =>
    match c with
    | [] => Except.error Fault.null_deref
    | chead :: next =>
      let f_pid := env.conditional_pid pos
      Except.ok
        { chain := { chead with pid := f_pid } :: next,
          cwd := cwd1,
          events := evs ++
            [ListEvent.fork pos f_pid cwd1 (conditional_child env c.length pos fds c)] }

/-! ## run_list -/

/-- The loop `while (c->op != TYPE_SEQUENCE && c->op != TYPE_BACKGROUND && c->next)`
of `run_list`: the number of steps `c = c->next` it takes from a non-null `c`. -/
def conditional_end : List command → Nat
  | [] => 0
  | c :: next =>
    if c.op ≠ TYPE_SEQUENCE ∧ c.op ≠ TYPE_BACKGROUND ∧ next ≠ [] then
      conditional_end next + 1
    else 0

/-- The loop `while (c)` of `run_list`, entered with `c == conditional_head` at
position `pos`.  Every iteration moves `c` forward, so `fuel` equal to the length
of the chain is never used up. -/
def run_list_loop (env : Env) (fds : FdTable) :
    Nat → String → Nat → List command → Except Fault (String × List ListEvent)
  | _, cwd, _, [] => Except.ok (cwd, [])
  | 0, _, _, _ :: _ => Except.error Fault.out_of_fuel
  | fuel + 1, cwd, pos, chead :: tl =>
    let k := conditional_end (chead :: tl)
    match run_conditional env cwd fds pos (chead :: tl) with
    | Except.error f => Except.error f
    | Except.ok r =>
      -- `c` points `k` nodes behind `conditional_head`
      match r.chain.head?, r.chain.drop k with
      | some conditional_head, c :: next =>
        let waited :=
          if c.op ≠ TYPE_BACKGROUND then
            [ListEvent.waitpid pos conditional_head.pid (pos + k)
              (env.conditional_status pos)]
          else []
        match run_list_loop env fds fuel r.cwd (pos + k + 1) next with
        | Except.error f => Except.error f
        | Except.ok (cwd2, rest) => Except.ok (cwd2, r.events ++ waited ++ rest)
      | _, _ => Except.error Fault.null_deref

/-- The function `run_list(c)` called with working directory `cwd` and descriptors
`fds`: the working directory afterwards and the actions of the interpreting
process. -/
def run_list (env : Env) (cwd : String) (fds : FdTable) (c : List command) :
    Except Fault (String × List ListEvent) :=
  run_list_loop env fds c.length cwd 0 c

/-! ## main -/

/-- Lines 367 to 370 of `main`, for a complete command line with tokens `toks`:
`if (command* c = parse_line(buf)) run_list(c);`. -/
def run_command_line (env : Env) (cwd : String) (fds : FdTable) (toks : List Token) :
    Except Fault (String × List ListEvent) :=
  match parse_line toks with
  | [] => Except.ok (cwd, [])
  | c :: next => run_list env cwd fds (c :: next)

/-! ## Notions used to state the properties -/

/-- Flags with which a redirection onto descriptor `fd` opens its file: read-only
for stdin, write with create and truncate otherwise. -/
def flags_for (fd : Int) : OpenFlags :=
  if fd = 0 then OpenFlags.O_RDONLY else OpenFlags.O_WRONLY_O_CREAT_O_TRUNC

/-- A redirection entry names one of the three standard descriptors. -/
def targets_std (r : redir) : Prop :=
  r.redirect_op = 0 ∨ r.redirect_op = 1 ∨ r.redirect_op = 2

instance (r : redir) : Decidable (targets_std r) := by
  unfold targets_std; infer_instance

/-- The last entry of `rs` that targets descriptor `fd`, if any. -/
def last_entry_for (fd : Int) (rs : List redir) : Option redir :=
  rs.reverse.find? (fun r => decide (r.redirect_op = fd))

/-- The binding of descriptor `fd` once all of `rs` has been applied on top of the
table `piped`: the file of the last entry for `fd`, else what `piped` has. -/
def binding_after (piped : FdTable) (rs : List redir) (fd : Int) : Option OpenFile :=
  match last_entry_for fd rs with
  | some r => some (OpenFile.file r.filename (flags_for fd))
  | none => piped.get fd

/-- The calls by which one entry is applied when its `open` succeeds. -/
def applied (r : redir) : List ChildEvent :=
  [ChildEvent.call_open r.filename (flags_for r.redirect_op) true,
   ChildEvent.call_dup2 (OpenFile.file r.filename (flags_for r.redirect_op)) r.redirect_op]

/-- The calls that follow the redirection loop: `execvp`, and the exit path taken
when `execvp` returns. -/
def exec_tail (env : Env) (id : Nat) (this : command) : List ChildEvent :=
  ChildEvent.call_execvp this.args.head? this.args ::
    (if env.execvp_ok id then []
     else [ChildEvent.call_fprintf "ERROR: execvp failed to execute", ChildEvent.call_exit 1])

/-- The calls made for an entry whose `open` fails (an entry that names no standard
descriptor makes no `open` call: `res` keeps its default `-1`). -/
def failed (r : redir) : List ChildEvent :=
  (if targets_std r then [ChildEvent.call_open r.filename (flags_for r.redirect_op) false]
   else []) ++
  [ChildEvent.call_fprintf "No such file or directory\n", ChildEvent.call_exit 1]

/-- Descriptors of the child of `this` after the pipe setup of `command::run`. -/
def after_pipe_setup (id : Nat) (fds : FdTable) (this : command) : FdTable :=
  if this.op = TYPE_PIPE then { fds with fd1 := OpenFile.pipe_write id } else fds

/-- Descriptors with which the stage at position `id` of the pipeline headed at
`pos` is forked, `fds` being the descriptors of the caller of `run_pipeline`: the
head gets `fds`, every later stage gets the read end of the pipe of its
predecessor as stdin. -/
def stage_fds (pos : Nat) (fds : FdTable) (id : Nat) : FdTable :=
  if id = pos then fds else { fds with fd0 := OpenFile.pipe_read (id - 1) }

/-- The launch of the stage `p.2` at position `p.1` of the pipeline headed at `pos`. -/
def stage_event (env : Env) (pos : Nat) (fds : FdTable) (p : Nat × command) : Event :=
  Event.run p.1 (env.run_pid p.1) (run_child env p.1 (stage_fds pos fds p.1) p.2)

/-- Positions of the nodes launched, in the order of the launches. -/
def launched (evs : List Event) : List Nat :=
  evs.filterMap (fun e => match e with
    | Event.run id _ _ => some id
    | Event.waitpid _ _ _ => none)

/-- The waits made, each as the pid waited for and the position of the node that
receives the status. -/
def waited (evs : List Event) : List (Int × Nat) :=
  evs.filterMap (fun e => match e with
    | Event.run _ _ _ => none
    | Event.waitpid pid id _ => some (pid, id))

/-- Descriptors of the caller of `run_pipeline` after a pipeline headed at `pos`
with `n` pipe-operator nodes. -/
def fds_after_pipeline (pos : Nat) (fds : FdTable) (n : Nat) : FdTable :=
  if n = 0 then fds else { fds with fd0 := OpenFile.pipe_read (pos + n - 1) }

/-- Actions of `run_pipeline` on the pipeline made of the pipe-operator nodes `pre`
and the terminal node `t`, headed at `pos`: the launches in order, then the wait for
the last stage. -/
def pipeline_events (env : Env) (pos : Nat) (fds : FdTable) (pre : List command)
    (t : command) : List Event :=
  (List.enumFrom pos (pre ++ [t])).map (stage_event env pos fds) ++
    [Event.waitpid (env.run_pid (pos + pre.length)) (pos + pre.length)
      (env.wait_status (pos + pre.length))]

/-- The status `s` is that of a process that exited normally with code 0. -/
def succeeded (s : Int) : Prop := WIFEXITED s ≠ 0 ∧ WEXITSTATUS s = 0

instance (s : Int) : Decidable (succeeded s) := by
  unfold succeeded; infer_instance

/-- A token is a control operator: neither a word nor a redirection operator. -/
def is_control (tok : Token) : Bool :=
  decide (tok.type ≠ TYPE_REDIRECT_OP ∧ tok.type ≠ TYPE_NORMAL)

/-- The control operators of a line, in order. -/
def control_ops (toks : List Token) : List TokenType :=
  (toks.filter is_control).map (fun tok => tok.type)

/-- Operator of the last node of a chain. -/
def last_op (chain : List command) : Option TokenType :=
  chain.getLast?.map (fun c => c.op)

/-- Every node of the chain whose operator is pipe has a `next`. -/
def pipes_have_next (chain : List command) : Prop :=
  ∀ i c, chain[i]? = some c → c.op = TYPE_PIPE → i + 1 < chain.length

/-- The nodes of the conditional that starts at the head of the chain: the nodes
through the first one whose operator is sequence or background, inclusive, or
through the last node of the chain. -/
def conditional_nodes : List command → List command
  | [] => []
  | c :: next =>
    if c.op = TYPE_SEQUENCE ∨ c.op = TYPE_BACKGROUND then [c] else c :: conditional_nodes next

/-- The conditionals of a chain, in order: maximal runs of nodes, each ending at a
node whose operator is sequence or background or at the last node of the chain. -/
def conditionals : List command → List (List command)
  | [] => []
  | c :: next =>
    if c.op = TYPE_SEQUENCE ∨ c.op = TYPE_BACKGROUND then [c] :: conditionals next
    else
      match conditionals next with
      | [] => [[c]]
      | seg :: segs => (c :: seg) :: segs

/-- Positions of the nodes that directly follow a node whose operator is sequence or
background, `pos` being the position of the first node of the chain. -/
def following_heads : Nat → List command → List Nat
  | _, [] => []
  | pos, c :: next =>
    if (c.op = TYPE_SEQUENCE ∨ c.op = TYPE_BACKGROUND) ∧ next ≠ [] then
      (pos + 1) :: following_heads (pos + 1) next
    else following_heads (pos + 1) next

/-- The reads of `args[0]` and `args[1]` that the scan for `cd` makes on the node
are within bounds. -/
def scan_safe (c : command) : Prop :=
  c.args ≠ [] ∧ (c.args[0]? = some "cd" → 2 ≤ c.args.length)

instance (c : command) : Decidable (scan_safe c) := by
  unfold scan_safe; infer_instance

/-- The second arguments of the nodes whose first argument is `cd`, in order. -/
def cd_targets (nodes : List command) : List String :=
  nodes.filterMap (fun c => if c.args[0]? = some "cd" then c.args[1]? else none)

/-- The working directory after `chdir` has been called on each path in turn, a
failing call leaving it as it is. -/
def cwd_after (env : Env) (cwd : String) (paths : List String) : String :=
  paths.foldl (fun dir path => (env.chdir dir path).getD dir) cwd

/-- The `chdir` calls on each path in turn, from working directory `cwd`. -/
def chdir_events (env : Env) : String → List String → List ListEvent
  | _, [] => []
  | cwd, path :: paths =>
    ListEvent.chdir path (env.chdir cwd path).isSome ::
      chdir_events env ((env.chdir cwd path).getD cwd) paths

/-- What `run_list` does at the level of conditionals. -/
inductive Sched where
  /-- The call `run_conditional(head)`, which forks once and records `pid` on `head`. -/
  | call (head : Nat) (pid : Int)
  /-- The blocking `waitpid` on `pid` after the call for `head`. -/
  | wait (head : Nat) (pid : Int)
deriving DecidableEq, Repr

/-- The calls of `run_conditional` and the waits among the actions of `run_list`. -/
def schedule (evs : List ListEvent) : List Sched :=
  evs.filterMap (fun e => match e with
    | ListEvent.chdir _ _ => none
    | ListEvent.fork head f_pid _ _ => some (Sched.call head f_pid)
    | ListEvent.waitpid head pid _ _ => some (Sched.wait head pid))

/-- Heads of the calls of `run_conditional`, in order. -/
def called_heads (evs : List ListEvent) : List Nat :=
  evs.filterMap (fun e => match e with
    | ListEvent.fork head _ _ _ => some head
    | _ => none)

/-- The schedule that the list runner is to follow on conditionals `segs`, the first
of which starts at position `pos`: one call per conditional, in order, each followed
by a wait on the pid recorded by the call unless the conditional ends in the
background operator.  `pid_of` gives the pid that the fork for a head returns. -/
def list_schedule (pid_of : Nat → Int) : Nat → List (List command) → List Sched
  | _, [] => []
  | pos, seg :: segs =>
    Sched.call pos (pid_of pos) ::
      (if last_op seg = some TYPE_BACKGROUND then [] else [Sched.wait pos (pid_of pos)]) ++
      list_schedule pid_of (pos + seg.length) segs

/-- Working directory of the interpreting process at the fork of each conditional:
head position and directory, in order. -/
def fork_cwds (evs : List ListEvent) : List (Nat × String) :=
  evs.filterMap (fun e => match e with
    | ListEvent.fork head _ cwd _ => some (head, cwd)
    | _ => none)

/-- The working directory in which each of the conditionals `segs` is to be forked:
the directory reached by the `cd` nodes of all conditionals up to and including
it. -/
def cwds_at_forks (env : Env) : String → Nat → List (List command) → List (Nat × String)
  | _, _, [] => []
  | cwd, pos, seg :: segs =>
    (pos, cwd_after env cwd (cd_targets seg)) ::
      cwds_at_forks env (cwd_after env cwd (cd_targets seg)) (pos + seg.length) segs

/-! ## Concrete lines and environments -/

/-- A word token. -/
def word (s : String) : Token := { type := TYPE_NORMAL, str := s }

/-- An environment in which every call succeeds and every process exits with
code 0. -/
def env_ok : Env :=
  { run_pid := fun id => 1000 + id,
    conditional_pid := fun id => 2000 + id,
    wait_status := fun _ => 0,
    conditional_status := fun _ => 0,
    open_ok := fun _ _ => true,
    execvp_ok := fun _ => true,
    chdir := fun _ path => some path }

/-- As `env_ok`, but the process of node 0 exits with code 1 (wait status 256). -/
def env_first_fails : Env :=
  { env_ok with wait_status := fun id => if id = 0 then 256 else 0 }

/-- Binding of the stdin of the child forked for node `id`, if it was launched. -/
def stdin_at_fork (id : Nat) (evs : List Event) : Option OpenFile :=
  (evs.filterMap (fun e => match e with
    | Event.run i _ child => if i = id then some child.inherited.fd0 else none
    | Event.waitpid _ _ _ => none)).head?

/-- The line `echo hi | cat && cat`. -/
def line_pipe_and : List Token :=
  [word "echo", word "hi", { type := TYPE_PIPE, str := "|" }, word "cat",
   { type := TYPE_AND, str := "&&" }, word "cat"]

/-- The line `false && echo a | cat`. -/
def line_and_pipe : List Token :=
  [word "false", { type := TYPE_AND, str := "&&" }, word "echo", word "a",
   { type := TYPE_PIPE, str := "|" }, word "cat"]

/-- The line `false && echo a ; echo b`. -/
def line_and_sequence : List Token :=
  [word "false", { type := TYPE_AND, str := "&&" }, word "echo", word "a",
   { type := TYPE_SEQUENCE, str := ";" }, word "echo", word "b"]

/-- The line `sleep 5 &`. -/
def line_background : List Token :=
  [word "sleep", word "5", { type := TYPE_BACKGROUND, str := "&" }]

/-- The line `a |`. -/
def line_dangling_pipe : List Token :=
  [word "a", { type := TYPE_PIPE, str := "|" }]

/-- The line `cd /tmp ; pwd`. -/
def line_cd_pwd : List Token :=
  [word "cd", word "/tmp", { type := TYPE_SEQUENCE, str := ";" }, word "pwd"]

/-- The line `sort < in > out1 > out2 | cat`. -/
def line_redirect : List Token :=
  [word "sort", { type := TYPE_REDIRECT_OP, str := "<" }, word "in",
   { type := TYPE_REDIRECT_OP, str := ">" }, word "out1",
   { type := TYPE_REDIRECT_OP, str := ">" }, word "out2",
   { type := TYPE_PIPE, str := "|" }, word "cat"]

/-- As `env_ok`, but the `open` for redirection entry 1 of every node fails. -/
def env_second_open_fails : Env :=
  { env_ok with open_ok := fun _ i => decide (i ≠ 1) }

/-- The node `sort < in > out1 > out2 |` of `line_redirect`. -/
def node_sort : command :=
  { args := ["sort"], op := TYPE_PIPE,
    redirections := [{ redirect_op := 0, filename := "in" },
                     { redirect_op := 1, filename := "out1" },
                     { redirect_op := 1, filename := "out2" }] }

/-- For each call of `run_conditional`: its head and the positions of the nodes
that its child launches, in order. -/
def launched_by_conditionals (evs : List ListEvent) : List (Nat × Except Fault (List Nat)) :=
  evs.filterMap (fun e => match e with
    | ListEvent.fork head _ _ child => some (head, child.map launched)
    | _ => none)

/-- The line `cd`. -/
def line_cd_alone : List Token := [word "cd"]

/-- The line `echo a ; cd`. -/
def line_echo_then_cd : List Token :=
  [word "echo", word "a", { type := TYPE_SEQUENCE, str := ";" }, word "cd"]

/-! ## Lemmas on the redirection loop -/

theorem open_redirection_ok (r : redir) (h : targets_std r) :
    open_redirection true r =
      (some (OpenFile.file r.filename (flags_for r.redirect_op)),
       [ChildEvent.call_open r.filename (flags_for r.redirect_op) true]) := by
  unfold open_redirection flags_for
  rcases h with h | h | h <;> simp [h]

theorem open_redirection_fails (b : Bool) (r : redir) (h : ¬ (targets_std r ∧ b = true)) :
    open_redirection b r =
      (none, if targets_std r then [ChildEvent.call_open r.filename (flags_for r.redirect_op) false]
             else []) := by
  unfold open_redirection flags_for targets_std
  unfold targets_std at h
  by_cases h0 : r.redirect_op = 0
  · have hb : b = false := by
      cases b
      · rfl
      · exact absurd ⟨Or.inl h0, rfl⟩ h
    simp [h0, hb]
  · by_cases h12 : r.redirect_op = 1 ∨ r.redirect_op = 2
    · have hb : b = false := by
        cases b
        · rfl
        · exact absurd ⟨Or.inr h12, rfl⟩ h
      simp [h0, h12, hb]
    · have : ¬ (r.redirect_op = 0 ∨ r.redirect_op = 1 ∨ r.redirect_op = 2) := by
        rintro (h | h | h)
        · exact h0 h
        · exact h12 (Or.inl h)
        · exact h12 (Or.inr h)
      simp [h0, h12, this]

theorem get_dup2 (t : FdTable) (f : OpenFile) (k fd : Int) (hk : k = 0 ∨ k = 1 ∨ k = 2) :
    (t.dup2 f k).get fd = if fd = k then some f else t.get fd := by
  unfold FdTable.dup2 FdTable.get
  rcases hk with h | h | h <;> subst h <;> by_cases h0 : fd = 0 <;> by_cases h1 : fd = 1 <;>
    by_cases h2 : fd = 2 <;> simp_all

theorem last_entry_for_cons (fd : Int) (r : redir) (rs : List redir) :
    last_entry_for fd (r :: rs) =
      match last_entry_for fd rs with
      | some x => some x
      | none => if r.redirect_op = fd then some r else none := by
  unfold last_entry_for
  rw [List.reverse_cons, List.find?_append]
  cases h : List.find? (fun r => decide (r.redirect_op = fd)) rs.reverse with
  | some x => simp
  | none =>
    by_cases hr : r.redirect_op = fd
    · simp [hr]
    · simp [hr]

theorem binding_after_cons (t : FdTable) (r : redir) (rs : List redir) (fd : Int)
    (hr : targets_std r) :
    binding_after t (r :: rs) fd
      = binding_after (t.dup2 (OpenFile.file r.filename (flags_for r.redirect_op)) r.redirect_op)
          rs fd := by
  unfold binding_after
  rw [last_entry_for_cons]
  cases h : last_entry_for fd rs with
  | some x => simp
  | none =>
    simp only [get_dup2 _ _ _ _ hr]
    by_cases hfd : r.redirect_op = fd
    · simp [hfd]
    · have : ¬ fd = r.redirect_op := fun h => hfd h.symm
      simp [hfd, this]

theorem redirect_loop_all_ok (open_ok : Nat → Bool) (rs : List redir) :
    ∀ (i : Nat) (fds : FdTable),
      (∀ j r, rs[j]? = some r → targets_std r ∧ open_ok (i + j) = true) →
      (redirect_loop open_ok i rs fds).completed = true ∧
      (redirect_loop open_ok i rs fds).events = rs.flatMap applied ∧
      ∀ fd, (redirect_loop open_ok i rs fds).fds.get fd = binding_after fds rs fd := by
  induction rs with
  | nil =>
    intro i fds _
    simp [redirect_loop, binding_after, last_entry_for]
  | cons r rs ih =>
    intro i fds h
    have h0 := h 0 r (by simp)
    have hrest : ∀ j x, rs[j]? = some x → targets_std x ∧ open_ok (i + 1 + j) = true := by
      intro j x hj
      have := h (j + 1) x (by simpa using hj)
      rw [show i + 1 + j = i + (j + 1) by omega]
      exact this
    obtain ⟨ihc, ihe, ihf⟩ := ih (i + 1)
      (fds.dup2 (OpenFile.file r.filename (flags_for r.redirect_op)) r.redirect_op) hrest
    have hopen : open_ok i = true := by simpa using h0.2
    simp only [redirect_loop, hopen, open_redirection_ok r h0.1]
    refine ⟨ihc, ?_, ?_⟩
    · simp [ihe, applied, List.flatMap_cons]
    · intro fd
      rw [binding_after_cons _ _ _ _ h0.1]
      exact ihf fd

/-! ## Lemmas on failing and last redirections -/

theorem redirect_loop_fails_at (open_ok : Nat → Bool) (rs : List redir) :
    ∀ (b i : Nat) (fds : FdTable) (r : redir),
      rs[i]? = some r →
      (∀ j x, j < i → rs[j]? = some x → targets_std x ∧ open_ok (b + j) = true) →
      ¬ (targets_std r ∧ open_ok (b + i) = true) →
      (redirect_loop open_ok b rs fds).completed = false ∧
      (redirect_loop open_ok b rs fds).events = (rs.take i).flatMap applied ++ failed r := by
  induction rs with
  | nil => intro b i fds r hi; simp at hi
  | cons x rs ih =>
    intro b i fds r hi hearlier hfail
    cases i with
    | zero =>
      have hx : x = r := by simpa using hi
      subst hx
      have hfail0 : ¬ (targets_std x ∧ open_ok b = true) := by simpa using hfail
      simp only [redirect_loop, open_redirection_fails _ _ hfail0]
      simp [failed]
    | succ i =>
      have h0 := hearlier 0 x (by omega) (by simp)
      have hopen : open_ok b = true := by simpa using h0.2
      have hi2 : rs[i]? = some r := by simpa using hi
      have he : ∀ j y, j < i → rs[j]? = some y → targets_std y ∧ open_ok (b + 1 + j) = true := by
        intro j y hj hy
        have := hearlier (j + 1) y (by omega) (by simpa using hy)
        rw [show b + 1 + j = b + (j + 1) by omega]
        exact this
      have hf : ¬ (targets_std r ∧ open_ok (b + 1 + i) = true) := by
        rw [show b + 1 + i = b + (i + 1) by omega]
        exact hfail
      obtain ⟨ihc, ihe⟩ := ih (b + 1) i
        (fds.dup2 (OpenFile.file x.filename (flags_for x.redirect_op)) x.redirect_op) r hi2 he hf
      simp only [redirect_loop, hopen, open_redirection_ok x h0.1]
      refine ⟨ihc, ?_⟩
      simp [ihe, applied, List.flatMap_cons]

theorem last_entry_for_some (fd : Int) (rs : List redir) (r : redir)
    (h : last_entry_for fd rs = some r) : r ∈ rs ∧ r.redirect_op = fd := by
  unfold last_entry_for at h
  have h1 := List.mem_of_find?_eq_some h
  have h2 := List.find?_some h
  exact ⟨by simpa using h1, by simpa using h2⟩

theorem last_entry_for_exists (fd : Int) (rs : List redir) (r : redir)
    (hr : r ∈ rs) (hfd : r.redirect_op = fd) : ∃ x, last_entry_for fd rs = some x := by
  unfold last_entry_for
  cases h : List.find? (fun r => decide (r.redirect_op = fd)) rs.reverse with
  | some x => exact ⟨x, rfl⟩
  | none =>
    rw [List.find?_eq_none] at h
    have := h r (by simpa using hr)
    simp [hfd] at this


/-! ## Lemmas on run_pipeline -/

theorem stage_event_shift (env : Env) (pos : Nat) (fds : FdTable) (l : List command) :
    (List.enumFrom (pos + 1) l).map
        (stage_event env (pos + 1) (fds.dup2 (OpenFile.pipe_read pos) 0))
      = (List.enumFrom (pos + 1) l).map (stage_event env pos fds) := by
  apply List.map_congr_left
  intro p hp
  have hle := List.le_fst_of_mem_enumFrom hp
  unfold stage_event stage_fds
  by_cases h1 : p.1 = pos + 1
  · have h2 : ¬ p.1 = pos := by omega
    simp [h1, FdTable.dup2]
  · have h2 : ¬ p.1 = pos := by omega
    simp [h1, h2, FdTable.dup2]

theorem run_pipeline_eq (env : Env) (pre : List command) :
    ∀ (pos : Nat) (fds : FdTable) (t : command) (rest : List command),
      (∀ c ∈ pre, c.op = TYPE_PIPE) → t.op ≠ TYPE_PIPE →
      run_pipeline env pos fds (pre ++ t :: rest) = Except.ok
        { chain := (List.enumFrom pos pre).map (fun p => { p.2 with pid := env.run_pid p.1 }) ++
            { t with pid := env.run_pid (pos + pre.length),
                     exit_status := env.wait_status (pos + pre.length) } :: rest,
          fds := fds_after_pipeline pos fds pre.length,
          events := (List.enumFrom pos (pre ++ [t])).map (stage_event env pos fds) ++
            [Event.waitpid (env.run_pid (pos + pre.length)) (pos + pre.length)
              (env.wait_status (pos + pre.length))] } := by
  induction pre with
  | nil =>
    intro pos fds t rest _ ht
    simp [run_pipeline, ht, command.run, fds_after_pipeline, stage_event, stage_fds]
  | cons hd pre ih =>
    intro pos fds t rest hpre ht
    have hhd : hd.op = TYPE_PIPE := hpre hd (by simp)
    have hpre2 : ∀ c ∈ pre, c.op = TYPE_PIPE := fun c hc => hpre c (by simp [hc])
    have hrec := ih (pos + 1) (fds.dup2 (OpenFile.pipe_read pos) 0) t rest hpre2 ht
    rw [stage_event_shift env pos fds] at hrec
    have hlen : pos + 1 + pre.length = pos + (pre.length + 1) := by omega
    rw [List.cons_append, run_pipeline]
    simp only [command.run, hhd, if_true]
    rw [hrec]
    simp only [List.enumFrom_cons, List.map_cons, List.length_cons, hlen, List.cons_append]
    congr 1
    simp only [PipelineResult.mk.injEq]
    refine ⟨?_, ?_, ?_⟩
    · simp [hhd]
    · unfold fds_after_pipeline
      by_cases hn : pre.length = 0
      · simp [hn, FdTable.dup2]
      · have h3 : pos + 1 + pre.length - 1 = pos + (pre.length + 1) - 1 := by omega
        simp [hn, FdTable.dup2, h3]
    · simp [stage_event, stage_fds]

theorem launched_stage_events (env : Env) (p0 : Nat) (fds : FdTable) (l : List command) :
    ∀ pos, launched ((List.enumFrom pos l).map (stage_event env p0 fds))
      = List.range' pos l.length := by
  induction l with
  | nil => intro pos; simp [launched]
  | cons c l ih =>
    intro pos
    have := ih (pos + 1)
    unfold launched at this ⊢
    simp [stage_event, List.range'_succ] at this ⊢
    exact this

theorem waited_stage_events (env : Env) (p0 : Nat) (fds : FdTable) (l : List command) :
    ∀ pos, waited ((List.enumFrom pos l).map (stage_event env p0 fds)) = [] := by
  induction l with
  | nil => intro pos; simp [waited]
  | cons c l _ =>
    intro pos
    unfold waited
    simp [stage_event]

theorem launched_append (a b : List Event) : launched (a ++ b) = launched a ++ launched b := by
  simp [launched, List.filterMap_append]

theorem waited_append (a b : List Event) : waited (a ++ b) = waited a ++ waited b := by
  simp [waited, List.filterMap_append]

theorem exit_status_pointwise (g : Nat → Int) (t t1 : command) (rest : List command)
    (pre : List command) :
    ∀ (pos j : Nat) (c c1 : command),
      (pre ++ t :: rest)[j]? = some c →
      ((List.enumFrom pos pre).map (fun p => { p.2 with pid := g p.1 }) ++ t1 :: rest)[j]?
        = some c1 →
      c1.exit_status = if j = pre.length then t1.exit_status else c.exit_status := by
  induction pre with
  | nil =>
    intro pos j c c1 h h1
    cases j with
    | zero =>
      simp at h1
      simp [← h1]
    | succ j =>
      simp at h h1
      rw [h] at h1
      simp at h1
      simp [h1]
  | cons hd pre ih =>
    intro pos j c c1 h h1
    cases j with
    | zero =>
      simp at h h1
      simp [← h1, ← h]
    | succ j =>
      simp only [List.cons_append, List.getElem?_cons_succ, List.enumFrom_cons,
        List.map_cons] at h h1
      have := ih (pos + 1) j c c1 h h1
      simpa using this

/-! ## Lemmas on the loop of the conditional child -/

theorem skip_while_run (op : TokenType) (pre : List command) :
    ∀ (pos : Nat) (t : command) (rest : List command),
      (∀ c ∈ pre, c.op = op) → t.op ≠ op →
      skip_while op pos (pre ++ t :: rest) = Except.ok (pos + pre.length, t, rest) := by
  induction pre with
  | nil => intro pos t rest _ ht; simp [skip_while, ht]
  | cons hd pre ih =>
    intro pos t rest hpre ht
    have hhd : hd.op = op := hpre hd (by simp)
    have := ih (pos + 1) t rest (fun c hc => hpre c (by simp [hc])) ht
    rw [List.cons_append, skip_while]
    simp only [hhd, if_true, this, List.length_cons]
    congr 2
    omega

theorem conditional_child_step (env : Env) (fuel pos : Nat) (fds : FdTable)
    (pre : List command) (t : command) (rest : List command)
    (hpre : ∀ c ∈ pre, c.op = TYPE_PIPE) (ht : t.op ≠ TYPE_PIPE) :
    conditional_child env (fuel + 1) pos fds (pre ++ t :: rest) =
      if t.op = TYPE_BACKGROUND ∨ t.op = TYPE_SEQUENCE then
        Except.ok (pipeline_events env pos fds pre t)
      else
        match (if (t.op = TYPE_AND ∧ ¬ succeeded (env.wait_status (pos + pre.length))) ∨
                  (t.op = TYPE_OR ∧ succeeded (env.wait_status (pos + pre.length)))
               then skip_while t.op (pos + pre.length + 1) rest
               else Except.ok (pos + pre.length,
                      { t with pid := env.run_pid (pos + pre.length),
                               exit_status := env.wait_status (pos + pre.length) }, rest)) with
        | Except.error f => Except.error f
        | Except.ok (spos, _, snext) =>
          match conditional_child env fuel (spos + 1)
              (fds_after_pipeline pos fds pre.length) snext with
          | Except.error f => Except.error f
          | Except.ok evs => Except.ok (pipeline_events env pos fds pre t ++ evs) := by
  obtain ⟨hd, tl, hcons⟩ : ∃ hd tl, pre ++ t :: rest = hd :: tl := by
    cases pre with
    | nil => exact ⟨t, rest, rfl⟩
    | cons a l => exact ⟨a, l ++ t :: rest, rfl⟩
  have hskip := skip_while_run TYPE_PIPE pre pos t rest hpre ht
  have hrun := run_pipeline_eq env pre pos fds t rest hpre ht
  rw [hcons] at hskip hrun ⊢
  rw [conditional_child]
  simp only [hskip, hrun]
  have hdrop : List.drop (pos + pre.length - pos)
      ((List.enumFrom pos pre).map (fun p => { p.2 with pid := env.run_pid p.1 }) ++
        { t with pid := env.run_pid (pos + pre.length),
                 exit_status := env.wait_status (pos + pre.length) } :: rest)
      = { t with pid := env.run_pid (pos + pre.length),
                 exit_status := env.wait_status (pos + pre.length) } :: rest := by
    rw [show pos + pre.length - pos = pre.length by omega]
    apply List.drop_left'
    simp
  simp only [hdrop]
  by_cases hbs : t.op = TYPE_BACKGROUND ∨ t.op = TYPE_SEQUENCE
  · simp [hbs, pipeline_events]
  · simp only [hbs, if_false]
    by_cases hand : t.op = TYPE_AND
    · by_cases hs : succeeded (env.wait_status (pos + pre.length))
      · have hs2 : ¬ (WIFEXITED (env.wait_status (pos + pre.length)) = 0 ∨
            WEXITSTATUS (env.wait_status (pos + pre.length)) ≠ 0) := by
          unfold succeeded at hs
          rintro (h | h)
          · exact hs.1 h
          · exact h hs.2
        simp [hand, hs, hs2, pipeline_events]
      · have hs2 : (WIFEXITED (env.wait_status (pos + pre.length)) = 0 ∨
            WEXITSTATUS (env.wait_status (pos + pre.length)) ≠ 0) := by
          unfold succeeded at hs
          by_cases h1 : WIFEXITED (env.wait_status (pos + pre.length)) = 0
          · exact Or.inl h1
          · right
            intro h2
            exact hs ⟨h1, h2⟩
        simp [hand, hs, hs2, pipeline_events, skip_while]
    · by_cases hor : t.op = TYPE_OR
      · by_cases hs : succeeded (env.wait_status (pos + pre.length))
        · have hs2 := hs
          unfold succeeded at hs2
          simp [hor, hs, hs2, pipeline_events, skip_while]
        · have hs2 : ¬ (WIFEXITED (env.wait_status (pos + pre.length)) ≠ 0 ∧
              WEXITSTATUS (env.wait_status (pos + pre.length)) = 0) := hs
          simp [hor, hs, hs2, pipeline_events]
      · simp [hand, hor, pipeline_events]

theorem skip_while_error (op : TokenType) (l : List command) :
    ∀ (pos : Nat) (f : Fault), skip_while op pos l = Except.error f → f = Fault.null_deref := by
  induction l with
  | nil => intro pos f h; simp [skip_while] at h; exact h.symm
  | cons c next ih =>
    intro pos f h
    rw [skip_while] at h
    split_ifs at h
    exact ih (pos + 1) f h

theorem skip_while_shorter (op : TokenType) (l : List command) :
    ∀ (pos spos : Nat) (c : command) (snext : List command),
      skip_while op pos l = Except.ok (spos, c, snext) → snext.length < l.length := by
  induction l with
  | nil => intro pos spos c snext h; simp [skip_while] at h
  | cons x next ih =>
    intro pos spos c snext h
    rw [skip_while] at h
    split_ifs at h
    · have := ih (pos + 1) spos c snext h
      simp only [List.length_cons]
      omega
    · simp only [Except.ok.injEq, Prod.mk.injEq] at h
      rw [← h.2.2]
      simp

theorem pipeline_split (chain : List command) :
    (∃ pre t rest, chain = pre ++ t :: rest ∧ (∀ c ∈ pre, c.op = TYPE_PIPE) ∧
      t.op ≠ TYPE_PIPE) ∨ (∀ c ∈ chain, c.op = TYPE_PIPE) := by
  induction chain with
  | nil => right; simp
  | cons x l ih =>
    by_cases hx : x.op = TYPE_PIPE
    · rcases ih with ⟨pre, t, rest, hl, hpre, ht⟩ | hall
      · left
        refine ⟨x :: pre, t, rest, by simp [hl], ?_, ht⟩
        intro c hc
        rcases List.mem_cons.mp hc with rfl | h
        · exact hx
        · exact hpre c h
      · right
        intro c hc
        rcases List.mem_cons.mp hc with rfl | h
        · exact hx
        · exact hall c h
    · left
      exact ⟨[], x, l, rfl, by simp, hx⟩

theorem skip_while_all (op : TokenType) (l : List command) (h : ∀ c ∈ l, c.op = op) :
    ∀ pos, skip_while op pos l = Except.error Fault.null_deref := by
  induction l with
  | nil => intro pos; rfl
  | cons x l ih =>
    intro pos
    rw [skip_while]
    simp only [h x (by simp), if_true]
    exact ih (fun c hc => h c (by simp [hc])) (pos + 1)

/-- The fuel given by `run_conditional` is enough: the loop of the child never
stops for lack of fuel. -/
theorem conditional_child_fuel (env : Env) :
    ∀ (fuel pos : Nat) (fds : FdTable) (chain : List command), chain.length ≤ fuel →
      conditional_child env fuel pos fds chain ≠ Except.error Fault.out_of_fuel := by
  intro fuel
  induction fuel with
  | zero =>
    intro pos fds chain hlen
    have : chain = [] := List.eq_nil_of_length_eq_zero (by omega)
    subst this
    simp [conditional_child]
  | succ n ih =>
    intro pos fds chain hlen
    cases chain with
    | nil => simp [conditional_child]
    | cons hd tl =>
      rcases pipeline_split (hd :: tl) with ⟨pre, t, rest, hsplit, hpre, ht⟩ | hall
      · rw [hsplit, conditional_child_step env n pos fds pre t rest hpre ht]
        have hrest : rest.length ≤ n := by
          have := congrArg List.length hsplit
          simp only [List.length_cons, List.length_append] at this hlen
          omega
        split_ifs with h1 h2
        · simp
        · cases hs : skip_while t.op (pos + pre.length + 1) rest with
          | error f =>
            have := skip_while_error _ _ _ _ hs
            subst this
            simp
          | ok v =>
            obtain ⟨spos, c, snext⟩ := v
            have hlt := skip_while_shorter _ _ _ _ _ _ hs
            have := ih (spos + 1) (fds_after_pipeline pos fds pre.length) snext (by omega)
            simp only
            cases hrec : conditional_child env n (spos + 1)
                (fds_after_pipeline pos fds pre.length) snext with
            | error f =>
              rw [hrec] at this
              simp only [ne_eq, Except.error.injEq] at this ⊢
              exact this
            | ok evs => simp
        · have := ih (pos + pre.length + 1) (fds_after_pipeline pos fds pre.length) rest hrest
          simp only
          cases hrec : conditional_child env n (pos + pre.length + 1)
              (fds_after_pipeline pos fds pre.length) rest with
          | error f =>
            rw [hrec] at this
            simp only [ne_eq, Except.error.injEq] at this ⊢
            exact this
          | ok evs => simp
      · rw [conditional_child]
        simp [skip_while_all TYPE_PIPE (hd :: tl) hall pos]

/-! ## Lemmas on parse_line -/

theorem parse_step_shape (s : ParseState) (tok : Token) :
    (parse_step s tok).before.map (fun c => c.op)
      = s.before.map (fun c => c.op) ++ control_ops [tok] ∧
    (s.c.op = TYPE_NORMAL → (parse_step s tok).c.op = TYPE_NORMAL) := by
  unfold parse_step control_ops is_control
  by_cases h1 : tok.type = TYPE_REDIRECT_OP
  · simp only [h1, if_true]
    split_ifs <;> simp [h1]
  · by_cases h2 : tok.type = TYPE_NORMAL
    · simp only [h1, h2, if_false]
      split_ifs <;> simp_all
    · simp [h1, h2]

theorem parse_fold_shape (toks : List Token) :
    ∀ s : ParseState, s.c.op = TYPE_NORMAL →
      (toks.foldl parse_step s).before.map (fun c => c.op)
        = s.before.map (fun c => c.op) ++ control_ops toks ∧
      (toks.foldl parse_step s).c.op = TYPE_NORMAL := by
  induction toks with
  | nil => intro s hs; simp [control_ops, hs]
  | cons tok toks ih =>
    intro s hs
    obtain ⟨h1, h2⟩ := parse_step_shape s tok
    obtain ⟨h3, h4⟩ := ih (parse_step s tok) (h2 hs)
    refine ⟨?_, h4⟩
    rw [List.foldl_cons, h3, h1, List.append_assoc]
    congr 1
    simp [control_ops, List.filter_cons]
    split_ifs <;> simp

theorem parse_fold_ends_in_control (pre : List Token) (tok : Token) (h : is_control tok = true) :
    ((pre ++ [tok]).foldl parse_step {}).c.args = [] := by
  rw [List.foldl_append]
  simp only [List.foldl_cons, List.foldl_nil]
  unfold is_control at h
  have h' : tok.type ≠ TYPE_REDIRECT_OP ∧ tok.type ≠ TYPE_NORMAL := by simpa using h
  simp [parse_step, h'.1, h'.2]

/-! ## Lemmas on the scan for cd and on run_list -/

theorem cd_scan_eq (env : Env) (chain : List command) :
    ∀ cwd, chain ≠ [] → (∀ c ∈ conditional_nodes chain, scan_safe c) →
      cd_scan env cwd chain = Except.ok
        (cwd_after env cwd (cd_targets (conditional_nodes chain)),
         chdir_events env cwd (cd_targets (conditional_nodes chain))) := by
  induction chain with
  | nil => intro cwd h; exact absurd rfl h
  | cons c next ih =>
    intro cwd _ hsafe
    have hc : scan_safe c := by
      apply hsafe
      unfold conditional_nodes
      split_ifs <;> simp
    obtain ⟨a0, hargs0⟩ : ∃ a0, c.args[0]? = some a0 := by
      cases hcargs : c.args with
      | nil => exact absurd hcargs hc.1
      | cons a l => exact ⟨a, by simp⟩
    rw [cd_scan]
    simp only [hargs0]
    by_cases hcd : a0 = "cd"
    · subst hcd
      obtain ⟨a1, hargs1⟩ : ∃ a1, c.args[1]? = some a1 := by
        have := hc.2 hargs0
        exact ⟨c.args[1], List.getElem?_eq_getElem (by omega)⟩
      simp only [hargs1, if_true]
      by_cases hend : c.op = TYPE_BACKGROUND ∨ c.op = TYPE_SEQUENCE ∨ next = []
      · have hnodes : conditional_nodes (c :: next) = [c] := by
          unfold conditional_nodes
          rcases hend with h | h | h
          · simp [h]
          · simp [h]
          · subst h
            split_ifs <;> simp [conditional_nodes]
        rw [hnodes]
        cases hch : env.chdir cwd a1 <;>
          simp [hend, cd_targets, hargs0, hargs1, cwd_after, chdir_events, hch]
      · have hnext : next ≠ [] := fun h => hend (Or.inr (Or.inr h))
        have hop : ¬ (c.op = TYPE_SEQUENCE ∨ c.op = TYPE_BACKGROUND) := by
          rintro (h | h)
          · exact hend (Or.inr (Or.inl h))
          · exact hend (Or.inl h)
        have hnodes : conditional_nodes (c :: next) = c :: conditional_nodes next := by
          rw [conditional_nodes]
          simp [hop]
        have hsafe2 : ∀ x ∈ conditional_nodes next, scan_safe x := by
          intro x hx
          apply hsafe
          rw [hnodes]
          simp [hx]
        rw [hnodes]
        cases hch : env.chdir cwd a1 with
        | none =>
          have := ih cwd hnext hsafe2
          simp [hend, this, cd_targets, hargs0, hargs1, cwd_after, chdir_events, hch]
        | some dir =>
          have := ih dir hnext hsafe2
          simp [hend, this, cd_targets, hargs0, hargs1, cwd_after, chdir_events, hch]
    · simp only [hcd, if_false]
      have hnotcd : ¬ (c.args[0]? = some "cd") := by
        rw [hargs0]
        simpa using hcd
      by_cases hend : c.op = TYPE_BACKGROUND ∨ c.op = TYPE_SEQUENCE ∨ next = []
      · have hnodes : conditional_nodes (c :: next) = [c] := by
          unfold conditional_nodes
          rcases hend with h | h | h
          · simp [h]
          · simp [h]
          · subst h
            split_ifs <;> simp [conditional_nodes]
        rw [hnodes]
        simp [hend, cd_targets, hnotcd, cwd_after, chdir_events]
      · have hnext : next ≠ [] := fun h => hend (Or.inr (Or.inr h))
        have hop : ¬ (c.op = TYPE_SEQUENCE ∨ c.op = TYPE_BACKGROUND) := by
          rintro (h | h)
          · exact hend (Or.inr (Or.inl h))
          · exact hend (Or.inl h)
        have hnodes : conditional_nodes (c :: next) = c :: conditional_nodes next := by
          rw [conditional_nodes]
          simp [hop]
        have hsafe2 : ∀ x ∈ conditional_nodes next, scan_safe x := by
          intro x hx
          apply hsafe
          rw [hnodes]
          simp [hx]
        rw [hnodes]
        have := ih cwd hnext hsafe2
        simp [hend, this, cd_targets, hnotcd, cwd_after, chdir_events]

theorem conditional_nodes_ne_nil (c : command) (next : List command) :
    conditional_nodes (c :: next) ≠ [] := by
  unfold conditional_nodes
  split_ifs <;> simp

theorem conditional_nodes_append_drop (chain : List command) :
    conditional_nodes chain ++ chain.drop (conditional_nodes chain).length = chain := by
  induction chain with
  | nil => simp [conditional_nodes]
  | cons c next ih =>
    unfold conditional_nodes
    split_ifs with h
    · simp
    · simpa using ih

theorem conditional_nodes_length (chain : List command) (hne : chain ≠ []) :
    (conditional_nodes chain).length = conditional_end chain + 1 := by
  induction chain with
  | nil => exact absurd rfl hne
  | cons c next ih =>
    unfold conditional_nodes conditional_end
    by_cases h : c.op = TYPE_SEQUENCE ∨ c.op = TYPE_BACKGROUND
    · have h2 : ¬ (c.op ≠ TYPE_SEQUENCE ∧ c.op ≠ TYPE_BACKGROUND ∧ next ≠ []) := by
        rintro ⟨h1, h2, _⟩
        rcases h with h | h
        · exact h1 h
        · exact h2 h
      simp [h, h2]
    · have h1 : c.op ≠ TYPE_SEQUENCE := fun x => h (Or.inl x)
      have h2 : c.op ≠ TYPE_BACKGROUND := fun x => h (Or.inr x)
      by_cases hn : next = []
      · subst hn
        simp [h, conditional_nodes]
      · simp [h, h1, h2, hn, ih hn]

theorem conditional_nodes_last (chain : List command) (hne : chain ≠ []) :
    ∃ d, chain.drop (conditional_end chain) = d :: chain.drop (conditional_end chain + 1) ∧
      last_op (conditional_nodes chain) = some d.op := by
  induction chain with
  | nil => exact absurd rfl hne
  | cons c next ih =>
    unfold conditional_nodes conditional_end
    by_cases h : c.op = TYPE_SEQUENCE ∨ c.op = TYPE_BACKGROUND
    · have h2 : ¬ (c.op ≠ TYPE_SEQUENCE ∧ c.op ≠ TYPE_BACKGROUND ∧ next ≠ []) := by
        rintro ⟨h1, h2, _⟩
        rcases h with h | h
        · exact h1 h
        · exact h2 h
      exact ⟨c, by simp [h2], by simp [h, last_op]⟩
    · have h1 : c.op ≠ TYPE_SEQUENCE := fun x => h (Or.inl x)
      have h2 : c.op ≠ TYPE_BACKGROUND := fun x => h (Or.inr x)
      by_cases hn : next = []
      · subst hn
        exact ⟨c, by simp, by simp [h, last_op, conditional_nodes]⟩
      · obtain ⟨d, hd1, hd2⟩ := ih hn
        refine ⟨d, by simpa [h1, h2, hn] using hd1, ?_⟩
        simp only [h, if_false]
        obtain ⟨x, l, hx⟩ : ∃ x l, conditional_nodes next = x :: l := by
          cases next with
          | nil => exact absurd rfl hn
          | cons a l =>
            cases hcn : conditional_nodes (a :: l) with
            | nil => exact absurd hcn (conditional_nodes_ne_nil a l)
            | cons x l2 => exact ⟨x, l2, rfl⟩
        rw [← hd2, hx]
        simp [last_op, List.getLast?_cons_cons]

theorem conditionals_eq (c : command) (next : List command) :
    conditionals (c :: next) = conditional_nodes (c :: next) ::
      conditionals ((c :: next).drop (conditional_nodes (c :: next)).length) := by
  induction next generalizing c with
  | nil =>
    unfold conditionals conditional_nodes
    split_ifs <;> simp [conditionals, conditional_nodes]
  | cons a l ih =>
    rw [conditionals, conditional_nodes]
    by_cases h : c.op = TYPE_SEQUENCE ∨ c.op = TYPE_BACKGROUND
    · simp [h]
    · simp only [h, if_false]
      rw [ih a]
      simp

theorem following_heads_eq (chain : List command) :
    ∀ pos, chain ≠ [] →
      following_heads pos chain =
        if chain.drop (conditional_nodes chain).length = [] then []
        else (pos + (conditional_nodes chain).length) ::
          following_heads (pos + (conditional_nodes chain).length)
            (chain.drop (conditional_nodes chain).length) := by
  induction chain with
  | nil => intro pos h; exact absurd rfl h
  | cons c next ih =>
    intro pos _
    rw [following_heads, conditional_nodes]
    by_cases h : c.op = TYPE_SEQUENCE ∨ c.op = TYPE_BACKGROUND
    · by_cases hn : next = []
      · subst hn
        simp [h, following_heads]
      · simp [h, hn]
    · simp only [h, false_and, if_false, List.length_cons, List.drop_succ_cons]
      by_cases hn : next = []
      · subst hn
        simp [following_heads, conditional_nodes]
      · rw [ih (pos + 1) hn]
        have : pos + 1 + (conditional_nodes next).length
            = pos + ((conditional_nodes next).length + 1) := by omega
        rw [this]

theorem run_conditional_eq (env : Env) (cwd : String) (fds : FdTable) (pos : Nat)
    (chead : command) (next : List command)
    (hsafe : ∀ c ∈ conditional_nodes (chead :: next), scan_safe c) :
    run_conditional env cwd fds pos (chead :: next) = Except.ok
      { chain := { chead with pid := env.conditional_pid pos } :: next,
        cwd := cwd_after env cwd (cd_targets (conditional_nodes (chead :: next))),
        events := chdir_events env cwd (cd_targets (conditional_nodes (chead :: next))) ++
          [ListEvent.fork pos (env.conditional_pid pos)
            (cwd_after env cwd (cd_targets (conditional_nodes (chead :: next))))
            (conditional_child env (chead :: next).length pos fds (chead :: next))] } := by
  unfold run_conditional
  rw [cd_scan_eq env (chead :: next) cwd (by simp) hsafe]

theorem run_list_loop_step (env : Env) (fds : FdTable) (fuel : Nat) (cwd : String) (pos : Nat)
    (chead : command) (tl : List command)
    (hsafe : ∀ c ∈ conditional_nodes (chead :: tl), scan_safe c) :
    run_list_loop env fds (fuel + 1) cwd pos (chead :: tl) =
      match run_list_loop env fds fuel
          (cwd_after env cwd (cd_targets (conditional_nodes (chead :: tl))))
          (pos + (conditional_nodes (chead :: tl)).length)
          ((chead :: tl).drop (conditional_nodes (chead :: tl)).length) with
      | Except.error f => Except.error f
      | Except.ok (cwd2, rest) =>
        Except.ok (cwd2,
          chdir_events env cwd (cd_targets (conditional_nodes (chead :: tl))) ++
          [ListEvent.fork pos (env.conditional_pid pos)
            (cwd_after env cwd (cd_targets (conditional_nodes (chead :: tl))))
            (conditional_child env (chead :: tl).length pos fds (chead :: tl))] ++
          (if last_op (conditional_nodes (chead :: tl)) = some TYPE_BACKGROUND then []
           else [ListEvent.waitpid pos (env.conditional_pid pos)
                  (pos + (conditional_nodes (chead :: tl)).length - 1)
                  (env.conditional_status pos)]) ++
          rest) := by
  rw [run_list_loop]
  simp only [run_conditional_eq env cwd fds pos chead tl hsafe, List.head?_cons]
  have hlen := conditional_nodes_length (chead :: tl) (by simp)
  obtain ⟨d, hd1, hd2⟩ := conditional_nodes_last (chead :: tl) (by simp)
  -- the delimiter in the chain after the call has the operator of `d`
  have hdrop : ∃ d1, d1.op = d.op ∧
      List.drop (conditional_end (chead :: tl))
        ({ chead with pid := env.conditional_pid pos } :: tl)
        = d1 :: (chead :: tl).drop (conditional_end (chead :: tl) + 1) := by
    cases hk : conditional_end (chead :: tl) with
    | zero =>
      rw [hk] at hd1
      simp only [List.drop_zero, List.cons.injEq] at hd1
      refine ⟨{ chead with pid := env.conditional_pid pos }, ?_, by simp⟩
      rw [← hd1.1]
    | succ k =>
      rw [hk] at hd1
      exact ⟨d, rfl, by simpa using hd1⟩
  obtain ⟨d1, hd1op, hd1drop⟩ := hdrop
  rw [hd1drop]
  simp only [hlen]
  have hbg : (d1.op ≠ TYPE_BACKGROUND) ↔
      ¬ (last_op (conditional_nodes (chead :: tl)) = some TYPE_BACKGROUND) := by
    rw [hd2, hd1op]
    simp
  have hpos : pos + (conditional_end (chead :: tl) + 1) - 1
      = pos + conditional_end (chead :: tl) := by omega
  have hpos2 : pos + conditional_end (chead :: tl) + 1
      = pos + (conditional_end (chead :: tl) + 1) := by omega
  rw [hpos, hpos2]
  by_cases hb : d1.op = TYPE_BACKGROUND
  · have hb2 : last_op (conditional_nodes (chead :: tl)) = some TYPE_BACKGROUND := by
      by_contra hcon
      exact (hbg.mpr hcon) hb
    simp only [hb, hb2, ne_eq, not_true_eq_false, if_false, if_true]
  · have hb2 : ¬ (last_op (conditional_nodes (chead :: tl)) = some TYPE_BACKGROUND) :=
      hbg.mp hb
    simp only [hb, hb2, ne_eq, not_false_eq_true, if_false, if_true]

theorem schedule_chdir_events (env : Env) (paths : List String) :
    ∀ cwd, schedule (chdir_events env cwd paths) = [] ∧
      fork_cwds (chdir_events env cwd paths) = [] ∧
      called_heads (chdir_events env cwd paths) = [] := by
  induction paths with
  | nil => intro cwd; simp [chdir_events, schedule, fork_cwds, called_heads]
  | cons p ps ih =>
    intro cwd
    obtain ⟨h1, h2, h3⟩ := ih ((env.chdir cwd p).getD cwd)
    refine ⟨?_, ?_, ?_⟩
    · unfold schedule at h1 ⊢
      simpa [chdir_events] using h1
    · unfold fork_cwds at h2 ⊢
      simpa [chdir_events] using h2
    · unfold called_heads at h3 ⊢
      simpa [chdir_events] using h3

theorem cd_targets_split (chain : List command) :
    cd_targets chain = cd_targets (conditional_nodes chain) ++
      cd_targets (chain.drop (conditional_nodes chain).length) := by
  conv_lhs => rw [← conditional_nodes_append_drop chain]
  simp [cd_targets, List.filterMap_append]

theorem run_list_loop_spec (env : Env) (fds : FdTable) :
    ∀ (fuel : Nat) (chain : List command) (cwd : String) (pos : Nat),
      chain.length ≤ fuel → (∀ c ∈ chain, scan_safe c) →
      ∃ evs, run_list_loop env fds fuel cwd pos chain
          = Except.ok (cwd_after env cwd (cd_targets chain), evs) ∧
        schedule evs = list_schedule env.conditional_pid pos (conditionals chain) ∧
        fork_cwds evs = cwds_at_forks env cwd pos (conditionals chain) ∧
        called_heads evs = (if chain = [] then [] else pos :: following_heads pos chain) := by
  intro fuel
  induction fuel with
  | zero =>
    intro chain cwd pos hlen _
    have : chain = [] := List.eq_nil_of_length_eq_zero (by omega)
    subst this
    exact ⟨[], by simp [run_list_loop, cd_targets, cwd_after],
      by simp [schedule, conditionals, list_schedule],
      by simp [fork_cwds, conditionals, cwds_at_forks], by simp [called_heads]⟩
  | succ n ih =>
    intro chain cwd pos hlen hsafe
    cases chain with
    | nil =>
      exact ⟨[], by simp [run_list_loop, cd_targets, cwd_after],
        by simp [schedule, conditionals, list_schedule],
        by simp [fork_cwds, conditionals, cwds_at_forks], by simp [called_heads]⟩
    | cons chead tl =>
      have hseg_safe : ∀ c ∈ conditional_nodes (chead :: tl), scan_safe c := by
        intro c hc
        apply hsafe
        rw [← conditional_nodes_append_drop (chead :: tl)]
        exact List.mem_append_left _ hc
      have hseg_pos : 1 ≤ (conditional_nodes (chead :: tl)).length := by
        rw [conditional_nodes_length (chead :: tl) (by simp)]
        omega
      have hrest_len :
          ((chead :: tl).drop (conditional_nodes (chead :: tl)).length).length ≤ n := by
        rw [List.length_drop]
        simp only [List.length_cons] at hlen ⊢
        omega
      have hrest_safe :
          ∀ c ∈ (chead :: tl).drop (conditional_nodes (chead :: tl)).length, scan_safe c :=
        fun c hc => hsafe c (List.mem_of_mem_drop hc)
      obtain ⟨evs, hrun, hsched, hcwds, hheads⟩ :=
        ih ((chead :: tl).drop (conditional_nodes (chead :: tl)).length)
          (cwd_after env cwd (cd_targets (conditional_nodes (chead :: tl))))
          (pos + (conditional_nodes (chead :: tl)).length) hrest_len hrest_safe
      obtain ⟨hc1, hc2, hc3⟩ := schedule_chdir_events env
        (cd_targets (conditional_nodes (chead :: tl))) cwd
      have hcwd : cwd_after env (cwd_after env cwd (cd_targets (conditional_nodes (chead :: tl))))
            (cd_targets ((chead :: tl).drop (conditional_nodes (chead :: tl)).length))
          = cwd_after env cwd (cd_targets (chead :: tl)) := by
        rw [cd_targets_split (chead :: tl)]
        simp [cwd_after, List.foldl_append]
      rw [hcwd] at hrun
      rw [run_list_loop_step env fds n cwd pos chead tl hseg_safe, hrun]
      refine ⟨_, rfl, ?_, ?_, ?_⟩
      · rw [conditionals_eq, list_schedule, ← hsched]
        unfold schedule at hc1 ⊢
        simp only [List.filterMap_append, hc1, List.nil_append]
        split_ifs <;> simp
      · rw [conditionals_eq, cwds_at_forks, ← hcwds]
        unfold fork_cwds at hc2 ⊢
        simp only [List.filterMap_append, hc2, List.nil_append]
        split_ifs <;> simp
      · rw [following_heads_eq (chead :: tl) pos (by simp), ← hheads,
          if_neg (List.cons_ne_nil chead tl)]
        unfold called_heads at hc3 ⊢
        simp only [List.filterMap_append, hc3, List.nil_append]
        split_ifs <;> simp

theorem cd_scan_error (env : Env) (chain : List command) :
    ∀ (cwd : String) (f : Fault), cd_scan env cwd chain = Except.error f →
      f ≠ Fault.out_of_fuel := by
  induction chain with
  | nil =>
    intro cwd f h
    simp only [cd_scan, Except.error.injEq] at h
    rw [← h]
    decide
  | cons c next ih =>
    intro cwd f h
    have tail : ∀ (cwd1 : String) (ev : List ListEvent),
        (if c.op = TYPE_BACKGROUND ∨ c.op = TYPE_SEQUENCE ∨ next = [] then
            (Except.ok (cwd1, ev) : Except Fault (String × List ListEvent))
          else
            match cd_scan env cwd1 next with
            | Except.error f => Except.error f
            | Except.ok (cwd2, evs) => Except.ok (cwd2, ev ++ evs)) = Except.error f →
        f ≠ Fault.out_of_fuel := by
      intro cwd1 ev h2
      split_ifs at h2
      cases hrec : cd_scan env cwd1 next with
      | error f2 =>
        rw [hrec] at h2
        simp only [Except.error.injEq] at h2
        subst h2
        exact ih _ _ hrec
      | ok v =>
        rw [hrec] at h2
        cases h2
    rw [cd_scan] at h
    cases h0 : c.args[0]? with
    | none =>
      simp only [h0, Except.error.injEq] at h
      rw [← h]
      decide
    | some a0 =>
      simp only [h0] at h
      by_cases hcd : a0 = "cd"
      · simp only [hcd, if_true] at h
        cases h1 : c.args[1]? with
        | none =>
          simp only [h1, Except.error.injEq] at h
          rw [← h]
          decide
        | some a1 =>
          simp only [h1] at h
          cases hch : env.chdir cwd a1 with
          | none =>
            simp only [hch] at h
            exact tail _ _ h
          | some dir =>
            simp only [hch] at h
            exact tail _ _ h
      · simp only [hcd, if_false] at h
        exact tail _ _ h

theorem run_conditional_error (env : Env) (cwd : String) (fds : FdTable) (pos : Nat)
    (chain : List command) (f : Fault)
    (h : run_conditional env cwd fds pos chain = Except.error f) : f ≠ Fault.out_of_fuel := by
  unfold run_conditional at h
  split at h
  · rename_i f2 hscan
    cases h
    exact cd_scan_error env chain cwd _ hscan
  · split at h
    · cases h
      decide
    · cases h

theorem run_conditional_chain (env : Env) (cwd : String) (fds : FdTable) (pos : Nat)
    (chead : command) (tl : List command) (r : ConditionalResult)
    (h : run_conditional env cwd fds pos (chead :: tl) = Except.ok r) :
    r.chain = { chead with pid := env.conditional_pid pos } :: tl := by
  unfold run_conditional at h
  split at h
  · cases h
  · simp only [Except.ok.injEq] at h
    rw [← h]

/-- The fuel given by `run_list` is enough: its loop never stops for lack of fuel. -/
theorem run_list_loop_fuel (env : Env) (fds : FdTable) :
    ∀ (fuel : Nat) (cwd : String) (pos : Nat) (chain : List command), chain.length ≤ fuel →
      run_list_loop env fds fuel cwd pos chain ≠ Except.error Fault.out_of_fuel := by
  intro fuel
  induction fuel with
  | zero =>
    intro cwd pos chain hlen
    have : chain = [] := List.eq_nil_of_length_eq_zero (by omega)
    subst this
    simp [run_list_loop]
  | succ n ih =>
    intro cwd pos chain hlen
    cases chain with
    | nil => simp [run_list_loop]
    | cons chead tl =>
      rw [run_list_loop]
      cases hrc : run_conditional env cwd fds pos (chead :: tl) with
      | error f =>
        have := run_conditional_error env cwd fds pos _ f hrc
        simpa using this
      | ok r =>
        have hchain := run_conditional_chain env cwd fds pos chead tl r hrc
        have hk : conditional_end (chead :: tl) < (chead :: tl).length := by
          have h1 := conditional_nodes_length (chead :: tl) (by simp)
          have h2 := congrArg List.length (conditional_nodes_append_drop (chead :: tl))
          simp only [List.length_append] at h2
          omega
        have hk2 : conditional_end (chead :: tl)
            < ({ chead with pid := env.conditional_pid pos } :: tl).length := by
          simpa using hk
        simp only [hchain, List.head?_cons]
        rw [List.drop_eq_getElem_cons hk2]
        simp only
        have hnext : (List.drop (conditional_end (chead :: tl) + 1)
            ({ chead with pid := env.conditional_pid pos } :: tl)).length ≤ n := by
          simp only [List.length_drop, List.length_cons] at hlen hk ⊢
          omega
        have := ih r.cwd (pos + conditional_end (chead :: tl) + 1) _ hnext
        cases hrec : run_list_loop env fds n r.cwd (pos + conditional_end (chead :: tl) + 1)
            (List.drop (conditional_end (chead :: tl) + 1)
              ({ chead with pid := env.conditional_pid pos } :: tl)) with
        | error f =>
          rw [hrec] at this
          simp only [ne_eq, Except.error.injEq] at this ⊢
          exact this
        | ok v => simp

theorem cd_scan_unsafe (env : Env) (chain : List command) :
    ∀ cwd, (∃ c ∈ conditional_nodes chain, ¬ scan_safe c) →
      cd_scan env cwd chain = Except.error Fault.args_out_of_range := by
  induction chain with
  | nil => intro cwd h; simp [conditional_nodes] at h
  | cons c next ih =>
    intro cwd hbad
    by_cases hc : scan_safe c
    · -- the offending node comes later in the conditional
      have hop : ¬ (c.op = TYPE_SEQUENCE ∨ c.op = TYPE_BACKGROUND) := by
        intro h
        obtain ⟨x, hx, hxbad⟩ := hbad
        simp only [conditional_nodes, h, if_true, List.mem_singleton] at hx
        subst hx
        exact hxbad hc
      have hnodes : conditional_nodes (c :: next) = c :: conditional_nodes next := by
        rw [conditional_nodes]
        simp [hop]
      have hbad2 : ∃ x ∈ conditional_nodes next, ¬ scan_safe x := by
        obtain ⟨x, hx, hxbad⟩ := hbad
        rw [hnodes] at hx
        rcases List.mem_cons.mp hx with rfl | h
        · exact absurd hc hxbad
        · exact ⟨x, h, hxbad⟩
      have hnext : next ≠ [] := by
        rintro rfl
        simp [conditional_nodes] at hbad2
      have hend : ¬ (c.op = TYPE_BACKGROUND ∨ c.op = TYPE_SEQUENCE ∨ next = []) := by
        rintro (h | h | h)
        · exact hop (Or.inr h)
        · exact hop (Or.inl h)
        · exact hnext h
      obtain ⟨a0, hargs0⟩ : ∃ a0, c.args[0]? = some a0 := by
        cases hcargs : c.args with
        | nil => exact absurd hcargs hc.1
        | cons a l => exact ⟨a, by simp⟩
      rw [cd_scan]
      simp only [hargs0]
      by_cases hcd : a0 = "cd"
      · subst hcd
        obtain ⟨a1, hargs1⟩ : ∃ a1, c.args[1]? = some a1 := by
          have := hc.2 hargs0
          exact ⟨c.args[1], List.getElem?_eq_getElem (by omega)⟩
        simp only [hargs1, if_true]
        cases hch : env.chdir cwd a1 with
        | none => simp [hend, ih cwd hbad2]
        | some dir => simp [hend, ih dir hbad2]
      · simp [hcd, hend, ih cwd hbad2]
    · rw [cd_scan]
      unfold scan_safe at hc
      cases hcargs : c.args with
      | nil => simp
      | cons a l =>
        have h2 : a = "cd" ∧ l = [] := by
          by_contra hcon
          apply hc
          rw [hcargs]
          refine ⟨by simp, ?_⟩
          intro ha
          have ha2 : a = "cd" := by simpa using ha
          cases l with
          | nil => exact absurd ⟨ha2, rfl⟩ hcon
          | cons b l2 => simp
        obtain ⟨rfl, rfl⟩ := h2
        simp

theorem run_list_loop_unsafe (env : Env) (fds : FdTable) :
    ∀ (fuel : Nat) (chain : List command) (cwd : String) (pos : Nat),
      chain.length ≤ fuel → (∃ c ∈ chain, ¬ scan_safe c) →
      run_list_loop env fds fuel cwd pos chain = Except.error Fault.args_out_of_range := by
  intro fuel
  induction fuel with
  | zero =>
    intro chain cwd pos hlen hbad
    have : chain = [] := List.eq_nil_of_length_eq_zero (by omega)
    subst this
    simp at hbad
  | succ n ih =>
    intro chain cwd pos hlen hbad
    cases chain with
    | nil => simp at hbad
    | cons chead tl =>
      by_cases hseg : ∀ c ∈ conditional_nodes (chead :: tl), scan_safe c
      · have hbad2 : ∃ c ∈ (chead :: tl).drop (conditional_nodes (chead :: tl)).length,
            ¬ scan_safe c := by
          obtain ⟨x, hx, hxbad⟩ := hbad
          rw [← conditional_nodes_append_drop (chead :: tl)] at hx
          rcases List.mem_append.mp hx with h | h
          · exact absurd (hseg x h) hxbad
          · exact ⟨x, h, hxbad⟩
        have hseg_pos : 1 ≤ (conditional_nodes (chead :: tl)).length := by
          rw [conditional_nodes_length (chead :: tl) (by simp)]
          omega
        have hrest_len :
            ((chead :: tl).drop (conditional_nodes (chead :: tl)).length).length ≤ n := by
          rw [List.length_drop]
          simp only [List.length_cons] at hlen ⊢
          omega
        rw [run_list_loop_step env fds n cwd pos chead tl hseg,
          ih _ _ _ hrest_len hbad2]
      · have hbad2 : ∃ c ∈ conditional_nodes (chead :: tl), ¬ scan_safe c := by
          by_contra hcon
          apply hseg
          intro c hc
          by_contra hcs
          exact hcon ⟨c, hc, hcs⟩
        rw [run_list_loop]
        simp [run_conditional, cd_scan_unsafe env (chead :: tl) cwd hbad2]

/-- The list runner has defined behaviour exactly on the chains on which the scan
for `cd` stays within the argument lists; otherwise it reads `args` out of range. -/
theorem run_list_defined_iff (env : Env) (cwd : String) (fds : FdTable) (chain : List command) :
    ((∀ c ∈ chain, scan_safe c) → ∃ res, run_list env cwd fds chain = Except.ok res) ∧
    (¬ (∀ c ∈ chain, scan_safe c) →
      run_list env cwd fds chain = Except.error Fault.args_out_of_range) := by
  constructor
  · intro h
    obtain ⟨evs, hrun, _⟩ := run_list_loop_spec env fds chain.length chain cwd 0 (le_refl _) h
    exact ⟨_, hrun⟩
  · intro h
    have hbad : ∃ c ∈ chain, ¬ scan_safe c := by
      by_contra hcon
      apply h
      intro c hc
      by_contra hcs
      exact hcon ⟨c, hc, hcs⟩
    exact run_list_loop_unsafe env fds chain.length chain cwd 0 (le_refl _) hbad

/-! ## Redirections (C6, C7) -/

/-- C6. Redirections of the child of `command::run`, when every entry opens
successfully: the entries are opened and bound in list order and `execvp` follows;
afterwards every descriptor is bound to the file of the last entry that targets it,
or, without such an entry, to what it was bound to after the pipe setup; for a node
with operator pipe and an entry for stdout, stdout is that file and not the write
end of the pipe. -/
theorem redirections_applied_in_order (env : Env) (id : Nat) (fds : FdTable) (this : command)
    (h : ∀ i r, this.redirections[i]? = some r → targets_std r ∧ env.open_ok id i = true) :
    ((this.run env id fds).child.events
        = this.redirections.flatMap applied ++ exec_tail env id this) ∧
    (∀ fd, (this.run env id fds).child.fds.get fd
        = binding_after (after_pipe_setup id fds this) this.redirections fd) ∧
    (this.op = TYPE_PIPE → (∃ r ∈ this.redirections, r.redirect_op = 1) →
      (after_pipe_setup id fds this).fd1 = OpenFile.pipe_write id ∧
      ∃ r ∈ this.redirections, r.redirect_op = 1 ∧
        last_entry_for 1 this.redirections = some r ∧
        (this.run env id fds).child.fds.fd1
          = OpenFile.file r.filename OpenFlags.O_WRONLY_O_CREAT_O_TRUNC ∧
        (this.run env id fds).child.fds.fd1 ≠ OpenFile.pipe_write id) := by
  have hsetup : (if this.op = TYPE_PIPE then fds.dup2 (OpenFile.pipe_write id) 1 else fds)
      = after_pipe_setup id fds this := by
    unfold after_pipe_setup FdTable.dup2
    simp
  obtain ⟨hc, he, hf⟩ := redirect_loop_all_ok (env.open_ok id) this.redirections 0
    (after_pipe_setup id fds this) (by simpa using h)
  have hfds : ∀ fd, (this.run env id fds).child.fds.get fd
      = binding_after (after_pipe_setup id fds this) this.redirections fd := by
    intro fd
    simp only [command.run, run_child, hsetup]
    exact hf fd
  refine ⟨?_, hfds, ?_⟩
  · simp only [command.run, run_child, hsetup, hc, he, exec_tail]
    simp
  · intro hop ⟨r, hr, hr1⟩
    refine ⟨by simp [after_pipe_setup, hop], ?_⟩
    obtain ⟨x, hx⟩ := last_entry_for_exists 1 this.redirections r hr hr1
    obtain ⟨hxm, hx1⟩ := last_entry_for_some 1 this.redirections x hx
    have h1 := hfds 1
    simp only [binding_after, hx, FdTable.get] at h1
    have h1' : (this.run env id fds).child.fds.fd1
        = OpenFile.file x.filename OpenFlags.O_WRONLY_O_CREAT_O_TRUNC := by
      simpa [flags_for] using h1
    exact ⟨x, hxm, hx1, hx, h1', by rw [h1']; simp⟩

/-- C7. A failing redirection in the child of `command::run`: when entry `i` does not
open (all earlier ones did), the child applies the entries before `i`, makes the
failing attempt, prints the diagnostic and calls `_exit(1)`; it makes no further
call, in particular no `execvp` and no `open` for a later entry.  The calling
process records and returns the pid all the same, and nothing in it depends on the
failure. -/
theorem redirection_failure_exits (env : Env) (id : Nat) (fds : FdTable) (this : command)
    (i : Nat) (r : redir) (hi : this.redirections[i]? = some r)
    (hearlier : ∀ j x, j < i → this.redirections[j]? = some x →
      targets_std x ∧ env.open_ok id j = true)
    (hfail : ¬ (targets_std r ∧ env.open_ok id i = true)) :
    ((this.run env id fds).child.events
        = (this.redirections.take i).flatMap applied ++ failed r) ∧
    (this.run env id fds).child.events.getLast? = some (ChildEvent.call_exit 1) ∧
    (∀ file argv, ChildEvent.call_execvp file argv ∉ (this.run env id fds).child.events) ∧
    (this.run env id fds).this = { this with pid := env.run_pid id } ∧
    (this.run env id fds).ret = env.run_pid id ∧
    (this.run env id fds).fds
      = (if this.op = TYPE_PIPE then { fds with fd0 := OpenFile.pipe_read id } else fds) := by
  obtain ⟨hc, he⟩ := redirect_loop_fails_at (env.open_ok id) this.redirections 0 i
    (if this.op = TYPE_PIPE then fds.dup2 (OpenFile.pipe_write id) 1 else fds) r hi
    (by simpa using hearlier) (by simpa using hfail)
  have hev : (this.run env id fds).child.events
      = (this.redirections.take i).flatMap applied ++ failed r := by
    simp only [command.run, run_child, hc, he]
    simp
  refine ⟨hev, ?_, ?_, rfl, rfl, ?_⟩
  · rw [hev]
    simp [failed, List.getLast?_append]
  · intro file argv hmem
    rw [hev] at hmem
    simp only [List.mem_append, List.mem_flatMap, applied, failed] at hmem
    rcases hmem with ⟨x, _, hx⟩ | hx
    · simp at hx
    · by_cases ht : targets_std r <;> simp [ht] at hx
  · simp [command.run, FdTable.dup2]

/-- C6: an instance. The child of `sort < in > out1 > out2 |` ends with stdin on
`in`, stdout on `out2` (the last entry for stdout, not the pipe) and stderr as
inherited. -/
theorem redirections_applied_in_order_witness :
    (node_sort.run env_ok 0 {}).child.fds
      = { fd0 := OpenFile.file "in" OpenFlags.O_RDONLY,
          fd1 := OpenFile.file "out2" OpenFlags.O_WRONLY_O_CREAT_O_TRUNC,
          fd2 := OpenFile.inherited 2 } ∧
    (node_sort.run env_ok 0 {}).child.events
      = node_sort.redirections.flatMap applied ++ exec_tail env_ok 0 node_sort := by
  have h := redirections_applied_in_order env_ok 0 {} node_sort (by
    intro i r hr
    have hm := List.getElem?_mem hr
    simp only [node_sort, List.mem_cons, List.mem_singleton, List.not_mem_nil, or_false] at hm
    rcases hm with rfl | rfl | rfl <;> exact ⟨by decide, rfl⟩)
  exact ⟨by decide, h.1⟩

/-- C7: an instance. When the second `open` of `sort < in > out1 > out2 |` fails, the
child applies `< in`, fails on `> out1`, and exits with code 1 without touching
`> out2` and without `execvp`; the parent still gets the pid. -/
theorem redirection_failure_exits_witness :
    (node_sort.run env_second_open_fails 0 {}).child.events
      = [ChildEvent.call_open "in" OpenFlags.O_RDONLY true,
         ChildEvent.call_dup2 (OpenFile.file "in" OpenFlags.O_RDONLY) 0,
         ChildEvent.call_open "out1" OpenFlags.O_WRONLY_O_CREAT_O_TRUNC false,
         ChildEvent.call_fprintf "No such file or directory\n",
         ChildEvent.call_exit 1] ∧
    (node_sort.run env_second_open_fails 0 {}).ret = 1000 :=
  have h := redirection_failure_exits env_second_open_fails 0 {} node_sort 1
    { redirect_op := 1, filename := "out1" } (by decide)
    (by
      intro j x hj hx
      have hj0 : j = 0 := by omega
      subst hj0
      have : x = { redirect_op := 0, filename := "in" } := by
        simpa [node_sort] using hx.symm
      subst this
      exact ⟨by decide, by decide⟩)
    (by decide)
  ⟨h.1, h.2.2.2.2.1⟩

/-! ## Pipelines (C5, C10) -/

/-- C5. The function `run_pipeline(head)` on a chain whose run of pipe-operator nodes
from `head` (the nodes `pre`) ends in a node `t` with another operator: it returns,
having launched exactly the nodes from `head` through `t`, each once and in chain
order, every stage after the head reading from the pipe of its predecessor; its last
action, and its only wait, is the `waitpid` on the pid recorded on `t`, whose status
is stored in the `exit_status` of `t`; every other node of the chain keeps the
`exit_status` it had (the default 1 when it had the default). -/
theorem run_pipeline_launches_then_waits_last (env : Env) (pos : Nat) (fds : FdTable)
    (pre : List command) (t : command) (rest : List command)
    (hpre : ∀ c ∈ pre, c.op = TYPE_PIPE) (ht : t.op ≠ TYPE_PIPE) :
    ∃ r, run_pipeline env pos fds (pre ++ t :: rest) = Except.ok r ∧
      launched r.events = List.range' pos (pre.length + 1) ∧
      r.events = (List.enumFrom pos (pre ++ [t])).map (stage_event env pos fds) ++
        [Event.waitpid (env.run_pid (pos + pre.length)) (pos + pre.length)
          (env.wait_status (pos + pre.length))] ∧
      waited r.events = [(env.run_pid (pos + pre.length), pos + pre.length)] ∧
      r.chain = (List.enumFrom pos pre).map (fun p => { p.2 with pid := env.run_pid p.1 }) ++
        { t with pid := env.run_pid (pos + pre.length),
                 exit_status := env.wait_status (pos + pre.length) } :: rest ∧
      (∀ j c c1, (pre ++ t :: rest)[j]? = some c → r.chain[j]? = some c1 →
        c1.exit_status
          = if j = pre.length then env.wait_status (pos + pre.length) else c.exit_status) ∧
      (∀ j c c1, j ≠ pre.length → (pre ++ t :: rest)[j]? = some c → r.chain[j]? = some c1 →
        c.exit_status = 1 → c1.exit_status = 1) := by
  refine ⟨_, run_pipeline_eq env pre pos fds t rest hpre ht, ?_, rfl, ?_, rfl, ?_, ?_⟩
  · simp only [launched_append, launched_stage_events]
    simp [launched]
  · simp only [waited_append, waited_stage_events]
    simp [waited]
  · intro j c c1 h h1
    exact exit_status_pointwise env.run_pid t _ rest pre pos j c c1 h h1
  · intro j c c1 hj h h1 hc
    have := exit_status_pointwise env.run_pid t _ rest pre pos j c c1 h h1
    simp only [hj, if_false] at this
    rw [this, hc]

/-- C10, counterexample. On `echo hi | cat && cat`, `run_pipeline` on the first
pipeline leaves the stdin of the calling process bound to the read end of the pipe
of `echo`, not to what it was before the call, and the second pipeline (`cat`, node
2) is launched with that read end as its stdin. -/
theorem stdin_not_preserved_counterexample :
    (run_pipeline env_ok 0 {} (parse_line line_pipe_and)).map (fun r => r.fds.fd0)
        ≠ Except.ok ({} : FdTable).fd0 ∧
    (run_pipeline env_ok 0 {} (parse_line line_pipe_and)).map (fun r => r.fds.fd0)
        = Except.ok (OpenFile.pipe_read 0) ∧
    (conditional_child env_ok 3 0 {} (parse_line line_pipe_and)).map (stdin_at_fork 2)
        = Except.ok (some (OpenFile.pipe_read 0)) := by
  decide

/-- C10, amended. For a pipeline made of the pipe-operator nodes `pre` and a terminal
node `t`, `run_pipeline(head)` returns and leaves the descriptors of the calling
process unchanged when the pipeline has a single stage; after a pipeline of several
stages the stdin of the caller is the read end of the pipe of the last
pipe-operator node (stdout and stderr are unchanged) and is not restored.  The loop
of `run_conditional` goes on with these descriptors when the link after `t` does not
short-circuit, and the first stage of a pipeline is forked with the descriptors the
loop has at that moment. -/
theorem run_pipeline_leaves_pipe_on_stdin (env : Env) (pos : Nat) (fds : FdTable)
    (pre : List command) (t : command) (rest : List command)
    (hpre : ∀ c ∈ pre, c.op = TYPE_PIPE) (ht : t.op ≠ TYPE_PIPE) :
    (∃ r, run_pipeline env pos fds (pre ++ t :: rest) = Except.ok r ∧
      (pre = [] → r.fds = fds) ∧
      (pre ≠ [] → r.fds = { fds with fd0 := OpenFile.pipe_read (pos + pre.length - 1) }) ∧
      r.fds = fds_after_pipeline pos fds pre.length) ∧
    (∀ fuel,
      (t.op = TYPE_AND ∧ succeeded (env.wait_status (pos + pre.length))) ∨
      (t.op = TYPE_OR ∧ ¬ succeeded (env.wait_status (pos + pre.length))) →
      conditional_child env (fuel + 1) pos fds (pre ++ t :: rest)
        = (conditional_child env fuel (pos + pre.length + 1)
            (fds_after_pipeline pos fds pre.length) rest).map
            (fun evs => pipeline_events env pos fds pre t ++ evs)) ∧
    (∀ fuel evs, conditional_child env fuel pos fds (pre ++ t :: rest) = Except.ok evs →
      ∃ child tail, evs = Event.run pos (env.run_pid pos) child :: tail ∧
        child.inherited = fds) := by
  refine ⟨⟨_, run_pipeline_eq env pre pos fds t rest hpre ht, ?_, ?_, rfl⟩, ?_, ?_⟩
  · intro h
    simp [h, fds_after_pipeline]
  · intro h
    have : pre.length ≠ 0 := by simpa using h
    simp [fds_after_pipeline, this]
  · intro fuel hcase
    rw [conditional_child_step env fuel pos fds pre t rest hpre ht]
    have hnb : ¬ (t.op = TYPE_BACKGROUND ∨ t.op = TYPE_SEQUENCE) := by
      rcases hcase with ⟨h, _⟩ | ⟨h, _⟩ <;> simp [h]
    have hns : ¬ ((t.op = TYPE_AND ∧ ¬ succeeded (env.wait_status (pos + pre.length))) ∨
        (t.op = TYPE_OR ∧ succeeded (env.wait_status (pos + pre.length)))) := by
      rcases hcase with ⟨h, hs⟩ | ⟨h, hs⟩ <;> simp [h, hs]
    simp only [hnb, hns, if_false]
    cases conditional_child env fuel (pos + pre.length + 1)
        (fds_after_pipeline pos fds pre.length) rest <;> rfl
  · intro fuel evs hev
    have hhead : ∃ hd tl, List.enumFrom pos (pre ++ [t]) = (pos, hd) :: tl := by
      cases pre with
      | nil => exact ⟨t, [], rfl⟩
      | cons a l => exact ⟨a, List.enumFrom (pos + 1) (l ++ [t]), rfl⟩
    obtain ⟨hd, tl, hhd⟩ := hhead
    have hpe : ∃ tail, pipeline_events env pos fds pre t
        = Event.run pos (env.run_pid pos) (run_child env pos fds hd) :: tail := by
      refine ⟨tl.map (stage_event env pos fds) ++
        [Event.waitpid (env.run_pid (pos + pre.length)) (pos + pre.length)
          (env.wait_status (pos + pre.length))], ?_⟩
      unfold pipeline_events
      rw [hhd]
      simp only [List.map_cons, List.cons_append, stage_event, stage_fds, if_true]
    obtain ⟨tail, htail⟩ := hpe
    cases fuel with
    | zero =>
      cases pre with
      | nil => simp [conditional_child] at hev
      | cons a l => simp [conditional_child] at hev
    | succ fuel =>
      rw [conditional_child_step env fuel pos fds pre t rest hpre ht] at hev
      by_cases hbs : t.op = TYPE_BACKGROUND ∨ t.op = TYPE_SEQUENCE
      · simp only [hbs, if_true] at hev
        cases hev
        exact ⟨run_child env pos fds hd, tail, htail, rfl⟩
      · simp only [hbs, if_false] at hev
        split at hev
        · cases hev
        · split at hev
          · cases hev
          · cases hev
            rename_i more _
            refine ⟨run_child env pos fds hd, tail ++ more, ?_, rfl⟩
            rw [htail]
            rfl

/-- C10, amended: an instance. On `echo hi | cat && cat` the pipeline `echo hi | cat`
has one pipe-operator node. -/
theorem run_pipeline_leaves_pipe_on_stdin_witness :
    ∃ r, run_pipeline env_ok 0 {} (parse_line line_pipe_and) = Except.ok r ∧
      r.fds = { ({} : FdTable) with fd0 := OpenFile.pipe_read 0 } := by
  obtain ⟨r, hr, _, h2, _⟩ := (run_pipeline_leaves_pipe_on_stdin env_ok 0 {}
    [{ args := ["echo", "hi"], op := TYPE_PIPE }] { args := ["cat"], op := TYPE_AND }
    [{ args := ["cat"] }] (by decide) (by decide)).1
  exact ⟨r, hr, h2 (by decide)⟩

/-- C5: an instance. On `echo hi | cat && cat`, `run_pipeline` at node 0 launches
nodes 0 and 1 and waits for node 1 only. -/
theorem run_pipeline_launches_then_waits_last_witness :
    ∃ r, run_pipeline env_ok 0 {} (parse_line line_pipe_and) = Except.ok r ∧
      launched r.events = [0, 1] ∧ waited r.events = [(1001, 1)] := by
  obtain ⟨r, hr, hl, _, hw, _⟩ := run_pipeline_launches_then_waits_last env_ok 0 {}
    [{ args := ["echo", "hi"], op := TYPE_PIPE }] { args := ["cat"], op := TYPE_AND }
    [{ args := ["cat"] }] (by decide) (by decide)
  exact ⟨r, hr, hl, hw⟩

/-! ## The graph builder (C3) -/

/-- C3, counterexample. The chain built for `sleep 5 &` ends in a node whose operator
is background, not none; the chain built for `a |` has a pipe-operator node without
a `next`. -/
theorem parse_line_invariants_counterexample :
    last_op (parse_line line_background) = some TYPE_BACKGROUND ∧
    last_op (parse_line line_background) ≠ some TYPE_NORMAL ∧
    ¬ pipes_have_next (parse_line line_dangling_pipe) := by
  refine ⟨by decide, by decide, ?_⟩
  intro h
  have := h 0 { args := ["a"], op := TYPE_PIPE } (by decide) rfl
  revert this
  decide

/-- C3, amended. For every token sequence, with `n` the number of its control
operators: when the line has no control operator, or the node built after the last
one received an argument, the chain has `n + 1` nodes, its last node has operator
none and every pipe-operator node has a `next`; otherwise the empty trailing node
is removed, the chain has `n` nodes and its last node keeps the last control
operator of the line.  A line that ends in a control operator is of the second
kind. -/
theorem parse_line_last_operator (toks : List Token) :
    (control_ops toks = [] ∨ trailing_args toks ≠ [] →
      (parse_line toks).length = (control_ops toks).length + 1 ∧
      last_op (parse_line toks) = some TYPE_NORMAL ∧
      pipes_have_next (parse_line toks)) ∧
    (control_ops toks ≠ [] ∧ trailing_args toks = [] →
      (parse_line toks).length = (control_ops toks).length ∧
      last_op (parse_line toks) = (control_ops toks).getLast?) ∧
    (∀ pre tok, toks = pre ++ [tok] → is_control tok = true →
      last_op (parse_line toks) = some tok.type) := by
  unfold trailing_args
  obtain ⟨hb, hc⟩ := parse_fold_shape toks {} rfl
  simp only [List.map_nil, List.nil_append] at hb
  have hlen : (toks.foldl parse_step {}).before.length = (control_ops toks).length := by
    rw [← hb, List.length_map]
  have hB : control_ops toks ≠ [] ∧ (toks.foldl parse_step {}).c.args = [] →
      (parse_line toks).length = (control_ops toks).length ∧
      last_op (parse_line toks) = (control_ops toks).getLast? := by
    rintro ⟨hne, hargs⟩
    have hbne : (toks.foldl parse_step {}).before ≠ [] := by
      intro h0
      rw [h0] at hb
      exact hne (by simpa using hb.symm)
    have hpl : parse_line toks = (toks.foldl parse_step {}).before := by
      simp [parse_line, hbne, hargs]
    rw [hpl]
    refine ⟨hlen, ?_⟩
    rw [← hb]
    simp [last_op, List.getLast?_map]
  refine ⟨?_, hB, ?_⟩
  · intro hA
    have hpl : parse_line toks
        = (toks.foldl parse_step {}).before ++ [(toks.foldl parse_step {}).c] := by
      rcases hA with h0 | hargs
      · have : (toks.foldl parse_step {}).before = [] := by
          rw [h0] at hb
          simpa using hb
        simp [parse_line, this]
      · simp [parse_line, hargs]
    rw [hpl]
    refine ⟨by simp [hlen], by simp [last_op, hc], ?_⟩
    intro i c hi hop
    simp only [List.length_append, List.length_singleton]
    by_cases hlt : i < (toks.foldl parse_step {}).before.length
    · omega
    · exfalso
      rw [List.getElem?_append_right (by omega)] at hi
      cases hk : i - (toks.foldl parse_step {}).before.length with
      | zero =>
        rw [hk] at hi
        simp at hi
        rw [← hi, hc] at hop
        cases hop
      | succ k =>
        rw [hk] at hi
        simp at hi
  · intro pre tok htoks hctl
    have hargs : (toks.foldl parse_step {}).c.args = [] := by
      rw [htoks]
      exact parse_fold_ends_in_control pre tok hctl
    have hops : control_ops toks = control_ops pre ++ [tok.type] := by
      rw [htoks]
      simp [control_ops, List.filter_append, hctl]
    have := (hB ⟨by rw [hops]; simp, hargs⟩).2
    rw [this, hops]
    simp

/-- C3, amended: an instance. The line `sleep 5 &` has one control operator and no
argument after it; its chain has one node, which carries the background operator. -/
theorem parse_line_last_operator_witness :
    (parse_line line_background).length = 1 ∧
    last_op (parse_line line_background) = some TYPE_BACKGROUND :=
  (parse_line_last_operator line_background).2.1 (by decide)

/-! ## List sequencing and the builtin cd (C4, C8) -/

/-- C4, counterexample. The blank line gives the non-empty chain of one node without
arguments; the list runner would have to call `run_conditional` on node 0 and wait
for the pid recorded on it, but `run_conditional` reads `args[0]` out of range before
it forks, so there is no call that records a pid and no wait.  On `echo a ; cd` the
read of `args[1]` of the second conditional is out of range in the same way. -/
theorem run_list_schedule_counterexample :
    parse_line [] ≠ [] ∧
    list_schedule env_ok.conditional_pid 0 (conditionals (parse_line []))
      = [Sched.call 0 2000, Sched.wait 0 2000] ∧
    run_list env_ok "/" {} (parse_line []) = Except.error Fault.args_out_of_range ∧
    (¬ ∃ cwd2 evs, run_list env_ok "/" {} (parse_line []) = Except.ok (cwd2, evs) ∧
      schedule evs
        = list_schedule env_ok.conditional_pid 0 (conditionals (parse_line []))) ∧
    parse_line line_echo_then_cd ≠ [] ∧
    run_list env_ok "/" {} (parse_line line_echo_then_cd)
      = Except.error Fault.args_out_of_range := by
  refine ⟨by decide, by decide, by decide, ?_, by decide, by decide⟩
  rintro ⟨cwd2, evs, h, _⟩
  have h0 : run_list env_ok "/" {} (parse_line [])
      = Except.error Fault.args_out_of_range := by decide
  rw [h0] at h
  cases h

/-- C4, amended. List sequencing, for a non-empty chain on which the scan for `cd`
stays within the argument lists (every node has an `args[0]`, and an `args[1]` when
`args[0]` is `cd`): `run_list` returns, having called `run_conditional` once
per conditional, in chain order; the heads of the calls are the first node and the
nodes that directly follow a node whose operator is sequence or background; each
call is followed, before the next call, by a wait on the pid that the call recorded
on its head, unless the conditional ends in the background operator, in which case
no wait is made.  The schedule is the same whatever the exit statuses are (in any
environment that hands out the same pids to the forks of `run_conditional`). -/
theorem run_list_schedules_conditionals (env : Env) (cwd : String) (fds : FdTable)
    (chain : List command) (hne : chain ≠ []) (hsafe : ∀ c ∈ chain, scan_safe c) :
    ∃ cwd2 evs, run_list env cwd fds chain = Except.ok (cwd2, evs) ∧
      schedule evs = list_schedule env.conditional_pid 0 (conditionals chain) ∧
      called_heads evs = 0 :: following_heads 0 chain ∧
      (∀ (env2 : Env) (cwd3 : String) (fds3 : FdTable),
        env2.conditional_pid = env.conditional_pid →
        ∃ cwd4 evs2, run_list env2 cwd3 fds3 chain = Except.ok (cwd4, evs2) ∧
          schedule evs2 = schedule evs) := by
  obtain ⟨evs, hrun, hsched, _, hheads⟩ :=
    run_list_loop_spec env fds chain.length chain cwd 0 (le_refl _) hsafe
  refine ⟨_, evs, hrun, hsched, ?_, ?_⟩
  · rw [hheads, if_neg hne]
  · intro env2 cwd3 fds3 hpid
    obtain ⟨evs2, hrun2, hsched2, _, _⟩ :=
      run_list_loop_spec env2 fds3 chain.length chain cwd3 0 (le_refl _) hsafe
    exact ⟨_, evs2, hrun2, by rw [hsched2, hsched, hpid]⟩

/-- C4, amended: an instance. On `cd /tmp ; pwd` there are two conditionals, headed at nodes 0
and 1; each is called once and waited for. -/
theorem run_list_schedules_conditionals_witness :
    ∃ cwd2 evs, run_list env_ok "/" {} (parse_line line_cd_pwd) = Except.ok (cwd2, evs) ∧
      schedule evs = [Sched.call 0 2000, Sched.wait 0 2000, Sched.call 1 2001,
                      Sched.wait 1 2001] ∧
      called_heads evs = [0, 1] := by
  obtain ⟨cwd2, evs, h1, h2, h3, _⟩ :=
    run_list_schedules_conditionals env_ok "/" {} (parse_line line_cd_pwd) (by decide)
      (by decide)
  exact ⟨cwd2, evs, h1, h2, h3⟩

/-- C8, counterexample. The line `cd` is one conditional of one node whose `args[0]`
is `cd`; `run_conditional` would have to call `chdir` on its `args[1]`, but there is
none: the read is out of range and the call does not reach its fork.  On the node
of the blank line the read of `args[0]` is out of range already. -/
theorem cd_without_target_counterexample :
    conditional_nodes (parse_line line_cd_alone) = [{ args := ["cd"] }] ∧
    (cd_scan env_ok "/" (parse_line line_cd_alone)
      = Except.error Fault.args_out_of_range) ∧
    (¬ ∃ r, run_conditional env_ok "/" {} 0 (parse_line line_cd_alone) = Except.ok r) ∧
    (¬ ∃ r, run_conditional env_ok "/" {} 0 (parse_line []) = Except.ok r) := by
  refine ⟨by decide, by decide, ?_, ?_⟩
  · rintro ⟨r, h⟩
    have h0 : run_conditional env_ok "/" {} 0 (parse_line line_cd_alone)
        = Except.error Fault.args_out_of_range := rfl
    rw [h0] at h
    cases h
  · rintro ⟨r, h⟩
    have h0 : run_conditional env_ok "/" {} 0 (parse_line [])
        = Except.error Fault.args_out_of_range := rfl
    rw [h0] at h
    cases h

/-- C8, amended. The builtin `cd`, for a conditional on whose nodes the scan stays
within the argument lists (every node has an `args[0]`, and an `args[1]` when
`args[0]` is `cd`): `run_conditional` returns; in the interpreting process it calls
`chdir` on `args[1]` of exactly the nodes of the conditional (head through the
terminating node) whose `args[0]` is `cd`, in chain order, a failing call leaving
the working directory as it is and not stopping the scan; the fork comes after
these calls, as the last action; the working directory after the call is the one
reached by the successful calls.  In `run_list`, every conditional is forked in the
working directory reached by the `cd` nodes of the conditionals up to and including
it. -/
theorem cd_changes_directory_of_interpreter (env : Env) (cwd : String) (fds : FdTable)
    (pos : Nat) (chain : List command) (hne : chain ≠ [])
    (hsafe : ∀ c ∈ conditional_nodes chain, scan_safe c) :
    (∃ r, run_conditional env cwd fds pos chain = Except.ok r ∧
      r.events = chdir_events env cwd (cd_targets (conditional_nodes chain)) ++
        [ListEvent.fork pos (env.conditional_pid pos) r.cwd
          (conditional_child env chain.length pos fds chain)] ∧
      r.cwd = cwd_after env cwd (cd_targets (conditional_nodes chain))) ∧
    ((∀ c ∈ chain, scan_safe c) →
      ∃ evs, run_list env cwd fds chain
          = Except.ok (cwd_after env cwd (cd_targets chain), evs) ∧
        fork_cwds evs = cwds_at_forks env cwd 0 (conditionals chain)) := by
  constructor
  · cases chain with
    | nil => exact absurd rfl hne
    | cons chead next =>
      exact ⟨_, run_conditional_eq env cwd fds pos chead next hsafe, rfl, rfl⟩
  · intro hall
    obtain ⟨evs, hrun, _, hcwds, _⟩ :=
      run_list_loop_spec env fds chain.length chain cwd 0 (le_refl _) hall
    exact ⟨evs, hrun, hcwds⟩

/-- C8, amended: an instance. On `cd /tmp ; pwd`, started in `/`, the first conditional
changes the directory before it forks, and the second one is forked in `/tmp`. -/
theorem cd_changes_directory_of_interpreter_witness :
    ∃ evs, run_list env_ok "/" {} (parse_line line_cd_pwd) = Except.ok ("/tmp", evs) ∧
      fork_cwds evs = [(0, "/tmp"), (1, "/tmp")] :=
  (cd_changes_directory_of_interpreter env_ok "/" {} 0 (parse_line line_cd_pwd)
    (by decide) (by decide)).2 (by decide)

/-! ## Short-circuit, conditional boundary and traversal safety (C1, C2, C9) -/

/-- C1, the code at `false && echo a | cat` with `false` exiting with code 1: the
conditional has the pipelines A = `false` (node 0) and B = `echo a | cat` (nodes 1
and 2) joined by one `&&`; A fails, and the child of `run_conditional` launches node
2 of B all the same. -/
theorem short_circuit_skips_one_node_only :
    parse_line line_and_pipe
      = [{ args := ["false"], op := TYPE_AND }, { args := ["echo", "a"], op := TYPE_PIPE },
         { args := ["cat"] }] ∧
    ¬ succeeded (env_first_fails.wait_status 0) ∧
    (conditional_child env_first_fails (parse_line line_and_pipe).length 0 {}
        (parse_line line_and_pipe)).map launched = Except.ok [0, 2] := by
  decide

/-- C2, the code at `false && echo a ; echo b` with `false` exiting with code 1: the
conditional that starts at node 0 consists of nodes 0 and 1, yet the child of
`run_conditional` for head 0 launches node 2, which lies behind the `;`; `run_list`
then launches node 2 a second time in the conditional of its own. -/
theorem conditional_launches_past_boundary :
    (conditional_nodes (parse_line line_and_sequence)).length = 2 ∧
    (conditional_child env_first_fails (parse_line line_and_sequence).length 0 {}
        (parse_line line_and_sequence)).map launched = Except.ok [0, 2] ∧
    (run_list env_first_fails "/" {} (parse_line line_and_sequence)).map
        (fun r => launched_by_conditionals r.2)
      = Except.ok [(0, Except.ok [0, 2]), (2, Except.ok [2])] := by
  decide

/-- C9, the code on three lines.  For the empty line `parse_line` returns a chain of
one node without arguments (not null), so `main` calls `run_list`, which reads
`args[0]` of that node; for `cd` it reads `args[1]` of a node with one argument;
for `a |` the child of `run_conditional` follows the null `next` of the
pipe-operator node. -/
theorem run_list_faults_on_parser_output :
    parse_line [] = [{}] ∧
    run_command_line env_ok "/" {} [] = Except.error Fault.args_out_of_range ∧
    run_command_line env_ok "/" {} line_cd_alone = Except.error Fault.args_out_of_range ∧
    (run_command_line env_ok "/" {} line_dangling_pipe).map
        (fun r => launched_by_conditionals r.2)
      = Except.ok [(0, Except.error Fault.null_deref)] := by
  decide

end Sh61
